import Mathlib

/-!
Verification of the partial-grid shortest-path planner (BestPathRs, src/src/lib.rs).

The Rust source is shallowly embedded below. Machine integers are modelled as
follows: `usize` values become `Nat` (the source never exercises `usize`
overflow for the quantities at stake), `i32` coordinates become `Int`, and the
`INF = i32::MAX` sentinel of the Dijkstra engine is kept as the literal
`2147483647` exactly as the source compares against it.  The external
`robotics_lib` crate is not part of this repository; the only facts the
planner uses from it are the tile's terrain classification, its elevation, and
the terrain-dependent base cost `tile_type.properties().cost()`.  That base
cost is therefore an explicit parameter `bc : TileType → Nat` of every
definition that consumes it, and the fallible `discover_tiles` capability is a
parameter `disc : Nat → Nat → Tile` modelling the successful-discovery case
(all claims below are conditioned on discovery succeeding).  The `Content`
field of a tile is never inspected by the planner and is omitted.

Loops of the source that are not structurally recursive (the Dijkstra loop,
the reachability traversal, the multi-target router loop and the predecessor
walk) are embedded with explicit fuel; for each one either a sufficient fuel
bound is proved (the loop genuinely terminates and the chosen fuel reaches the
final state with an empty work list), or — for the router loop, which can in fact
fail to terminate — fuel exhaustion (`none`) models nontermination.
-/

namespace BestPath

/-- Direction of a single robot move, as in `robotics_lib::interface::Direction`. -/
inductive Direction where
  | Up | Down | Left | Right
  deriving DecidableEq, Repr

/-- Terrain classification of a tile, as in `robotics_lib::world::tile::TileType`. -/
inductive TileType where
  | DeepWater | ShallowWater | Sand | Grass | Street | Hill | Mountain | Snow | Lava | Teleport | Wall
  deriving DecidableEq, Repr

/-- A world tile: terrain type and elevation.  The `content` field of the Rust
`Tile` is never read by the planner and is omitted from the embedding. -/
structure Tile where
  tile_type : TileType
  elevation : Nat
  deriving DecidableEq, Repr

/-- Default tile used only to totalise out-of-contract indexing (places where
the Rust source would panic on an out-of-bounds index that is provably in
bounds for every caller). -/
def default_tile : Tile := ⟨TileType.Grass, 0⟩

/-- Graph node as stored in the adjacency lists: destination index and edge
weight (the source reuses the same struct for heap entries, where `distance`
is the priority key). Mirrors `struct Node` of the source. -/
structure Node where
  index : Nat
  distance : Nat
  deriving DecidableEq, Repr

/-- Result record for one target, mirroring `struct PathResult`. -/
structure PathResult where
  path : Option (List Nat)
  target_node : Nat
  total_cost : Nat
  deriving DecidableEq, Repr

/-- The `INF` constant of the source (`i32::MAX`), used as the
absent-distance sentinel in the relaxation comparison. -/
def INF_SENTINEL : Nat := 2147483647

/-- Mirrors `fn is_wakable`: deep water, lava and walls are not walkable. -/
def is_wakable (tile : Tile) : Bool :=
  match tile.tile_type with
  | .DeepWater | .Lava | .Wall => false
  | _ => true

/-- Mirrors `fn get_cost`: unwalkable terrain costs 100000, otherwise the
terrain's base cost (`tile_type.properties().cost()`, supplied as `bc`). -/
def get_cost (bc : TileType → Nat) (tile : Tile) : Nat :=
  match tile.tile_type with
  | .DeepWater | .Lava | .Wall => 100000
  | _ => bc tile.tile_type

/-- Mirrors `fn get_cost_elevation`: squared elevation gain when the arrival
tile is strictly higher, 0 otherwise. -/
def get_cost_elevation (tile_arrive : Tile) (tile_start : Tile) : Nat :=
  if tile_arrive.elevation ≤ tile_start.elevation then 0
  else (tile_arrive.elevation - tile_start.elevation) ^ 2

/-- Mirrors `fn get_neighbours`.  `value` is the row-major index of the source
cell; the four candidate 4-neighbours are emitted in the source's order
(bottom `x-1`, right `y+1`, top `x+1`, left `y-1`) when the bounds checks
pass and the destination is walkable.  Callers always pass
`value = x * cols + y` with `x < rows`, so the `Nat` truncated subtractions
`value - cols` and `value - 1` coincide with the source's `usize` arithmetic
(each is guarded by `1 ≤ x` resp. `1 ≤ y`). -/
def get_neighbours (bc : TileType → Nat) (matrix_tile : List (List Tile))
    (x y value : Nat) (tile : Tile) : List Node :=
  let rows := matrix_tile.length
  let cols := (matrix_tile.headD []).length
  let cell := fun i j => ((matrix_tile.getD i []).getD j default_tile)
  let mk := fun (idx : Nat) (t : Tile) =>
    if t.elevation = 0 then Node.mk idx (get_cost bc t)
    else Node.mk idx (get_cost bc t + get_cost_elevation t tile)
  let bottom :=
    if 1 ≤ x ∧ x - 1 < rows ∧ y < cols then
      (if is_wakable (cell (x-1) y) then [mk (value - cols) (cell (x-1) y)] else [])
    else []
  let right :=
    if x < rows ∧ y + 1 < cols then
      (if is_wakable (cell x (y+1)) then [mk (value + 1) (cell x (y+1))] else [])
    else []
  let top :=
    if x + 1 < rows ∧ y < cols then
      (if is_wakable (cell (x+1) y) then [mk (value + cols) (cell (x+1) y)] else [])
    else []
  let left :=
    if x < rows ∧ 1 ≤ y ∧ y - 1 < cols then
      (if is_wakable (cell x (y-1)) then [mk (value - 1) (cell x (y-1))] else [])
    else []
  bottom ++ right ++ top ++ left

/-- Mirrors `fn change_matrix`: row-major enumeration of the tile matrix,
building one adjacency list per cell, collecting one target-vertex entry per
matching requested coordinate (duplicates in `nodi_dinteresse` produce
duplicate entries), and recording the start vertex index. -/
def change_matrix (bc : TileType → Nat) (matrix_tile : List (List Tile))
    (nodi_dinteresse : List (Int × Int)) (startin_node : Int × Int) :
    List (List Node) × List Nat × Nat :=
  let rows := matrix_tile.length
  let cols := (matrix_tile.headD []).length
  let init : List (List Node) × List Nat × Nat × Nat :=
    (List.replicate (rows * cols) ([] : List Node), ([] : List Nat), 0, 0)
  let res := matrix_tile.enum.foldl
    (fun (acc : List (List Node) × List Nat × Nat × Nat) (xrow : Nat × List Tile) =>
    xrow.2.enum.foldl (fun (st : List (List Node) × List Nat × Nat × Nat)
        (ytile : Nat × Tile) =>
      let x := xrow.1
      let y := ytile.1
      let tile := ytile.2
      let matrix_node := st.1
      let target_nodes := st.2.1
      let starting_node_index := st.2.2.1
      let label_node := st.2.2.2
      let starting_node_index' :=
        if (x : Int) = startin_node.1 ∧ (y : Int) = startin_node.2 then label_node
        else starting_node_index
      let target_nodes' := target_nodes ++
        (nodi_dinteresse.filter (fun n => (x : Int) = n.1 ∧ (y : Int) = n.2)).map
          (fun _ => label_node)
      let matrix_node' :=
        if is_wakable tile then
          matrix_node.set label_node
            (matrix_node.getD label_node [] ++ get_neighbours bc matrix_tile x y label_node tile)
        else matrix_node
      (matrix_node', target_nodes', starting_node_index', label_node + 1)) acc) init
  (res.1, res.2.1, res.2.2.1)

/-- Mirrors `fn get_coordinates`: the association list from running row-major
index to `(row, column)`. -/
def get_coordinates_list (matrix : List (List Tile)) : List (Nat × (Nat × Nat)) :=
  (matrix.enum.foldl (fun acc irow =>
    irow.2.enum.foldl (fun st jcell =>
      (st.1 ++ [(st.2, (irow.1, jcell.1))], st.2 + 1)) acc)
    (([] : List (Nat × (Nat × Nat))), 0)).1

/-- The coordinate map as a lookup function (the source stores a `HashMap`
whose `get` returns an `Option`). -/
def get_coordinates (matrix : List (List Tile)) : Nat → Option (Nat × Nat) :=
  fun k => (get_coordinates_list matrix).lookup k

/-- Mirrors `fn scan_matrix`: fetch the tile at `(x, y)` of the masked matrix,
but only when that cell is marked known.  A negative `i32` index cast
`as usize` in the source becomes an astronomically large index whose lookup
fails, which the embedding renders as the `x < 0` / `y < 0` guards. -/
def scan_matrix (matrix : List (List (Tile × Bool))) (x y : Int) : Option Tile :=
  if x < 0 then none
  else
    match matrix.get? x.toNat with
    | none => none
    | some row =>
      if y < 0 then none
      else
        match row.get? y.toNat with
        | none => none
        | some tile => if !tile.2 then none else some tile.1

/-- Mirrors `fn show_neighbor`: the 8-connected neighbourhood lookups, in the
source's order (the source returns an 8-tuple; the embedding uses a list of
the same eight entries in the same order). -/
def show_neighbor (matrix : List (List (Tile × Bool))) (x y : Int) : List (Option Tile) :=
  [scan_matrix matrix (x-1) (y-1), scan_matrix matrix (x-1) y,
   scan_matrix matrix (x-1) (y+1), scan_matrix matrix x (y-1),
   scan_matrix matrix x (y+1), scan_matrix matrix (x+1) (y-1),
   scan_matrix matrix (x+1) y, scan_matrix matrix (x+1) (y+1)]

/-- Mirrors `fn find_max_in_tuple`: `none` when every entry is `none`;
otherwise a fold that keeps the first tile whose base cost strictly exceeds
the running maximum, which starts at 0 — so tiles of base cost 0 are never
selected and the fold can still yield `none`. -/
def find_max_in_tuple (bc : TileType → Nat) (tuple : List (Option Tile)) : Option Tile :=
  if tuple.all (fun t => t.isNone) then none
  else
    (tuple.foldl (fun (acc : Option Tile × Nat) tile_option =>
      match tile_option with
      | some tile =>
        if bc tile.tile_type > acc.2 then (some tile, bc tile.tile_type) else acc
      | none => acc) (none, 0)).1

/-- Writes value `v` at row `i`, column `j` of a nested list (total; callers
stay in bounds). -/
def update2 {α : Type} (m : List (List α)) (i j : Nat) (v : α) : List (List α) :=
  m.set i ((m.getD i []).set j v)

/-- One cell of the filler pass (the body of the inner `for j` loop of
`from_vec_to_matrix` when `discover` is set).  Returns the resolved cell, the
updated live mask, the number of discovery calls made (0 or 1) and the list of
discovery requests issued (each request of the source is a single-cell
`discover_tiles` call). -/
def fill_cell (bc : TileType → Nat) (disc : Nat → Nat → Tile)
    (mask : List (List (Tile × Bool))) (i j : Nat) (val : Tile) (known : Bool) :
    (Tile × Bool) × List (List (Tile × Bool)) × Nat × List (Nat × Nat) :=
  if !known then
    let neighbor := show_neighbor mask (i : Int) (j : Int)
    let max_val := find_max_in_tuple bc neighbor
    match max_val with
    | none =>
      let new_val := (disc i j, true)
      (new_val, update2 mask i j new_val, 1, [(i, j)])
    | some t => ((t, false), mask, 0, [])
  else ((val, true), mask, 0, [])

/-- The inner `for j` loop of the filler: processes the snapshot row taken at
the start of the enclosing `for i` iteration, threading the live mask (which
discovery writes update) and the running column index. -/
def fill_row (bc : TileType → Nat) (disc : Nat → Nat → Tile) (i : Nat) :
    List (List (Tile × Bool)) → List (Tile × Bool) → Nat →
    List (Tile × Bool) × List (List (Tile × Bool)) × Nat × List (Nat × Nat)
  | mask, [], _ => ([], mask, 0, [])
  | mask, cell :: rest, j =>
    let r := fill_cell bc disc mask i j cell.1 cell.2
    let rec_ := fill_row bc disc i r.2.1 rest (j + 1)
    (r.1 :: rec_.1, rec_.2.1, r.2.2.1 + rec_.2.2.1, r.2.2.2 ++ rec_.2.2.2)

/-- The outer `for i` loop of the filler: `k` rows remain, the next one having
index `i`.  Each iteration snapshots its row from the live mask (the source
clones the whole mask at the top of the iteration and reads `(val, known)`
from the clone) and then processes it with `fill_row`. -/
def fill_rows (bc : TileType → Nat) (disc : Nat → Nat → Tile) :
    List (List (Tile × Bool)) → Nat → Nat →
    List (List (Tile × Bool)) × List (List (Tile × Bool)) × Nat × List (Nat × Nat)
  | mask, _, 0 => ([], mask, 0, [])
  | mask, i, k + 1 =>
    let snap := mask.getD i []
    let r := fill_row bc disc i mask snap 0
    let rec_ := fill_rows bc disc r.2.1 (i + 1) k
    (r.1 :: rec_.1, rec_.2.1, r.2.2.1 + rec_.2.2.1, r.2.2.2 ++ rec_.2.2.2)

/-- The whole filler pass over the mask matrix (the `discover == true` part of
`from_vec_to_matrix`): returns the resolved matrix (`new_matrix` of the
source), the final live mask, the total `n_discover`, and the discovery
requests issued in order. -/
def fill_pass (bc : TileType → Nat) (disc : Nat → Nat → Tile)
    (mask : List (List (Tile × Bool))) :
    List (List (Tile × Bool)) × List (List (Tile × Bool)) × Nat × List (Nat × Nat) :=
  fill_rows bc disc mask 0 mask.length

/-- The lava tile the normaliser pre-fills with. -/
def lava_tile : Tile := ⟨TileType.Lava, 0⟩

/-- Writes `v` at row `r`, column `c`, failing (like the source's panicking
index expression) when the position is outside the allocated shape. -/
def set_cell {α : Type} (m : List (List α)) (r c : Nat) (v : α) :
    Option (List (List α)) :=
  match m.get? r with
  | none => none
  | some row =>
    match row.get? c with
    | none => none
    | some _ => some (m.set r (row.set c v))

/-- The bounding-box computation of `fn from_vec_to_matrix` (source lines
254-283): the four min/max folds over the target list (which the caller has
already extended with the transposed start), minima initialised to
`i32::MAX`, maxima to `0`, then merged with the known-cell bounds when there
are known cells. -/
def normalize_bounds (nodi_conosciuti : List ((Int × Int) × Tile))
    (nodi_interesse_clone : List (Int × Int)) : Int × Int × Int × Int :=
  let b0 : Int × Int × Int × Int := nodi_interesse_clone.foldl
    (fun (b : Int × Int × Int × Int) (nodo : Int × Int) =>
      (if nodo.1 < b.1 then nodo.1 else b.1,
       if nodo.2 < b.2.1 then nodo.2 else b.2.1,
       if nodo.1 > b.2.2.1 then nodo.1 else b.2.2.1,
       if nodo.2 > b.2.2.2 then nodo.2 else b.2.2.2))
    (2147483647, 2147483647, 0, 0)
  match nodi_conosciuti with
  | [] => b0
  | k0 :: _ =>
    let kb : Int × Int × Int × Int := nodi_conosciuti.foldl
      (fun (b : Int × Int × Int × Int) (nodo : (Int × Int) × Tile) =>
        (if nodo.1.1 < b.1 then nodo.1.1 else b.1,
         if nodo.1.2 < b.2.1 then nodo.1.2 else b.2.1,
         if nodo.1.1 > b.2.2.1 then nodo.1.1 else b.2.2.1,
         if nodo.1.2 > b.2.2.2 then nodo.1.2 else b.2.2.2))
      (k0.1.1, k0.1.2, k0.1.1, k0.1.2)
    (if kb.1 < b0.1 then kb.1 else b0.1,
     if kb.2.1 < b0.2.1 then kb.2.1 else b0.2.1,
     if kb.2.2.1 > b0.2.2.1 then kb.2.2.1 else b0.2.2.1,
     if kb.2.2.2 > b0.2.2.2 then kb.2.2.2 else b0.2.2.2)

/-- The known-cell overwrite loop of `fn from_vec_to_matrix` (source lines
304-309), as a fallible fold: each record is written at row `y - i_min_y`,
column `x - i_min_x` of both the matrix and the mask; an out-of-shape (or
negative, which the source's `as usize` cast turns into a huge) index panics,
modelled by `none`. -/
def overwrite_known (i_min_x i_min_y : Int) (nodi_conosciuti : List ((Int × Int) × Tile))
    (mm0 : List (List Tile) × List (List (Tile × Bool))) :
    Option (List (List Tile) × List (List (Tile × Bool))) :=
  nodi_conosciuti.foldlM
    (fun (mm : List (List Tile) × List (List (Tile × Bool))) (nodo : (Int × Int) × Tile) =>
      if nodo.1.2 - i_min_y < 0 ∨ nodo.1.1 - i_min_x < 0 then none
      else
        match set_cell mm.1 (nodo.1.2 - i_min_y).toNat (nodo.1.1 - i_min_x).toNat nodo.2 with
        | none => none
        | some matrix' =>
          match set_cell mm.2 (nodo.1.2 - i_min_y).toNat (nodo.1.1 - i_min_x).toNat
              (nodo.2, true) with
          | none => none
          | some mask' => some (matrix', mask'))
    mm0

/-- The bounding-box-and-overwrite part of `fn from_vec_to_matrix` (source
lines 251-309): pushes the transposed start onto the target list, computes
the bounding box, allocates the lava-filled matrix and mask over it, and
overwrites every known record. -/
def normalize_core (nodi_conosciuti : List ((Int × Int) × Tile))
    (nodi_interesse : List (Int × Int)) (starting_node : Int × Int) :
    Option (List (List Tile) × List (List (Tile × Bool)) × Int × Int) :=
  let nodi_interesse_clone : List (Int × Int) :=
    nodi_interesse ++ [(starting_node.2, starting_node.1)]
  let b := normalize_bounds nodi_conosciuti nodi_interesse_clone
  let i_min_x := b.1
  let i_min_y := b.2.1
  let i_max_x := b.2.2.1
  let i_max_y := b.2.2.2
  let num_rows := (i_max_x - i_min_x + 1).toNat
  let num_cols := (i_max_y - i_min_y + 1).toNat
  let matrix : List (List Tile) := List.replicate num_rows (List.replicate num_cols lava_tile)
  let mask_matrix : List (List (Tile × Bool)) :=
    List.replicate num_rows (List.replicate num_cols (lava_tile, false))
  match overwrite_known i_min_x i_min_y nodi_conosciuti (matrix, mask_matrix) with
  | none => none
  | some mm => some (mm.1, mm.2, i_min_x, i_min_y)

/-- Mirrors `fn from_vec_to_matrix`.  `none` models the panics of the source:
the explicit empty-target panic (checked before anything else), and the
out-of-bounds known-cell write inside `normalize_core`.  When `discover` is
false the normalised matrix is returned as-is; otherwise the filler pass
resolves every unknown cell and the tuple components are stripped (the
source's final re-indexing loop reads back exactly the cells of `new_matrix`
in order). -/
def from_vec_to_matrix (bc : TileType → Nat) (disc : Nat → Nat → Tile)
    (nodi_conosciuti : List ((Int × Int) × Tile)) (nodi_interesse : List (Int × Int))
    (starting_node : Int × Int) (discover : Bool) :
    Option (List (List Tile) × Int × Int) :=
  if nodi_interesse.length = 0 then none
  else
    match normalize_core nodi_conosciuti nodi_interesse starting_node with
    | none => none
    | some r =>
      let matrix := r.1
      let mask_matrix := r.2.1
      let i_min_x := r.2.2.1
      let i_min_y := r.2.2.2
      if !discover then some (matrix, i_min_x, i_min_y)
      else
        let f := fill_pass bc disc mask_matrix
        some (f.1.map (List.map Prod.fst), i_min_x, i_min_y)

/-- Removes and returns a minimum-priority entry from the heap list, together
with the remaining entries.  `BinaryHeap<Node>` with the source's reversed
`Ord` (which compares only the `distance` field) pops some entry of minimal
`distance`; which of several tied entries comes out is unspecified by the
`Ord` contract, and the embedding fixes the leftmost one. -/
def pop_min : List Node → Option (Node × List Node)
  | [] => none
  | n :: rest =>
    match pop_min rest with
    | none => some (n, [])
    | some (m, rest') =>
      if n.distance ≤ m.distance then some (n, rest) else some (m, n :: rest')

/-- State of the Dijkstra loop: tentative distances, predecessors, visited
flags and the priority queue contents. -/
structure DState where
  dist : List (Option Nat)
  pred : List (Option Nat)
  visited : List Bool
  heap : List Node
  deriving Repr

/-- The `while let Some(..) = heap.pop()` loop of `fn dijkstra`, with explicit
fuel (a sufficient bound is proved below: with fuel `1 + total degree` the
loop runs until the heap empties).  A popped, already-visited entry is
discarded; otherwise the vertex is finalised and each outgoing edge is
relaxed exactly as in the source, comparing against `INF_SENTINEL` when no
distance is recorded.  `relax` is the body of the source's
`for neighbor in &graph[node.index]` edge loop. -/
def relax (nd : Node) (t : DState) (neighbor : Node) : DState :=
  let new_distance := nd.distance + neighbor.distance
  let neighbor_distance := (t.dist.getD neighbor.index none).getD INF_SENTINEL
  if new_distance < neighbor_distance then
    { t with dist := t.dist.set neighbor.index (some new_distance),
             pred := t.pred.set neighbor.index (some nd.index),
             heap := t.heap ++ [Node.mk neighbor.index new_distance] }
  else t

def dijkstra_loop (g : List (List Node)) : Nat → DState → DState
  | 0, s => s
  | fuel + 1, s =>
    match pop_min s.heap with
    | none => s
    | some (nd, heap') =>
      if s.visited.getD nd.index false then
        dijkstra_loop g fuel { s with heap := heap' }
      else
        let s1 : DState := { s with visited := s.visited.set nd.index true, heap := heap' }
        let s2 := (g.getD nd.index []).foldl (relax nd) s1
        dijkstra_loop g fuel s2

/-- Total number of adjacency-list entries of the graph; `1 + total_deg g`
bounds the number of loop iterations of both priority traversals. -/
def total_deg (g : List (List Node)) : Nat := (g.map List.length).sum

/-- Mirrors `fn dijkstra`: distances and predecessors from `start`. -/
def dijkstra (g : List (List Node)) (start : Nat) :
    List (Option Nat) × List (Option Nat) :=
  let n := g.length
  let s0 : DState :=
    ⟨(List.replicate n (none : Option Nat)).set start (some 0),
     List.replicate n (none : Option Nat),
     List.replicate n false,
     [Node.mk start 0]⟩
  let s := dijkstra_loop g (1 + total_deg g) s0
  (s.dist, s.pred)

/-- The predecessor walk of `fn reconstruct_shortest_path` (its `while let`
loop), with fuel: the returned list is `[target, ..., root]` in push order.
`none` means the walk did not finish within the fuel — the source would then
loop forever, which is proved unreachable for Dijkstra-produced predecessor
arrays.  An index outside the array would panic in the source and is likewise
out of contract here. -/
def walk_back (predecessor : List (Option Nat)) : Nat → Nat → Option (List Nat)
  | 0, _ => none
  | fuel + 1, current =>
    match predecessor.getD current none with
    | some prev =>
      match walk_back predecessor fuel prev with
      | some l => some (current :: l)
      | none => none
    | none => some [current]

/-- Mirrors `fn reconstruct_shortest_path`: walk the predecessors back from
`target`, reverse, and report `None` when the path is only `[target]`. -/
def reconstruct_shortest_path (predecessor : List (Option Nat)) (target : Nat) :
    Option (List Nat) :=
  match walk_back predecessor (predecessor.length + 1) target with
  | none => none
  | some l =>
    let path := l.reverse
    if path.length = 0 then none
    else if path = [target] then none
    else some path

/-- Mirrors `fn find_shortest_paths`: one Dijkstra run serves every target;
a target with no recorded distance gets the sentinel total cost 0. -/
def find_shortest_paths (g : List (List Node)) (start : Nat) (target_nodes : List Nat) :
    List PathResult :=
  let dp := dijkstra g start
  target_nodes.map (fun target_node =>
    let path := reconstruct_shortest_path dp.2 target_node
    let tmp :=
      match dp.1.getD target_node none with
      | none => 0
      | some t => t
    PathResult.mk path target_node tmp)

/-- Mirrors `fn path_to_directions`: consecutive coordinate deltas classified
into the four unit moves; any other delta, or a node missing from the
coordinate map, is an error. -/
def path_to_directions (coordinates : Nat → Option (Nat × Nat)) :
    List Nat → Except String (List Direction)
  | [] => .ok []
  | [_] => .ok []
  | current_node :: next_node :: rest =>
    match coordinates current_node with
    | none => .error "missing coordinate for the current node"
    | some current_coords =>
      match coordinates next_node with
      | none => .error "missing coordinate for the next node"
      | some next_coords =>
        let dx : Int := (next_coords.1 : Int) - (current_coords.1 : Int)
        let dy : Int := (next_coords.2 : Int) - (current_coords.2 : Int)
        let dir : Option Direction :=
          if dx = -1 ∧ dy = 0 then some .Up
          else if dx = 1 ∧ dy = 0 then some .Down
          else if dx = 0 ∧ dy = -1 then some .Left
          else if dx = 0 ∧ dy = 1 then some .Right
          else none
        match dir with
        | none => .error "invalid coordinate change for a direction"
        | some direction =>
          match path_to_directions coordinates (next_node :: rest) with
          | .error e => .error e
          | .ok directions => .ok (direction :: directions)

/-- First entry of minimal `total_cost`, mirroring
`paths.iter().min_by_key(|path| path.total_cost)` (Rust's `min_by_key`
returns the first of several equally minimal elements). -/
def min_by_total_cost (paths : List PathResult) : Option PathResult :=
  paths.foldl (fun acc p =>
    match acc with
    | none => some p
    | some q => if p.total_cost < q.total_cost then some p else acc) none

/-- The `while !target_nodes.is_empty()` loop of `fn build_path`, with fuel.
`none` models nontermination: when the minimum-cost candidate has no path the
source's `if let Some(path)` simply falls through without removing the
candidate, so the loop re-runs forever on an unchanged state — the embedding
recurses on the same state, consuming only fuel.  The `path.last().unwrap()`
of the source is total because reconstructed paths are never empty (proved
below); the embedding uses `getLast?.getD 0`. -/
def build_path_loop (g : List (List Node)) (coordinates : Nat → Option (Nat × Nat)) :
    Nat → Nat → List Nat → List (List Direction) →
    Option (Except String (List (List Direction)))
  | 0, _, _, _ => none
  | fuel + 1, start, target_nodes, final_path =>
    if target_nodes.isEmpty then some (.ok final_path)
    else
      let paths := find_shortest_paths g start target_nodes
      match min_by_total_cost paths with
      | none => build_path_loop g coordinates fuel start target_nodes final_path
      | some best =>
        match best.path with
        | none => build_path_loop g coordinates fuel start target_nodes final_path
        | some path =>
          let start' := path.getLast?.getD 0
          match path_to_directions coordinates path with
          | .error e => some (.error e)
          | .ok directions =>
            build_path_loop g coordinates fuel start'
              (target_nodes.filter (fun x => x ≠ best.target_node))
              (final_path ++ [directions])

/-- Mirrors `fn build_path`.  One loop iteration retires one target when the
best candidate has a path, so `targets.length + 1` fuel suffices for every
terminating execution; `none` therefore models a run the source would never
finish. -/
def build_path (g : List (List Node)) (start : Nat) (target_nodes : List Nat)
    (coordinates : Nat → Option (Nat × Nat)) :
    Option (Except String (List (List Direction))) :=
  build_path_loop g coordinates (target_nodes.length + 1) start target_nodes []

/-- State of the reachability traversal of `fn find_connected_targets`. -/
structure CState where
  visited : List Bool
  heap : List Node
  connected : List Nat
  deriving Repr

/-- The traversal loop of `fn find_connected_targets`, with fuel (the same
`1 + total degree` bound empties the heap).  A freshly visited vertex that is
among the requested targets is appended to the result; neighbours not yet
visited are pushed with the source's (cost-irrelevant) priority
`distance + neighbor.index`. -/
def fct_loop (g : List (List Node)) (targets : List Nat) : Nat → CState → CState
  | 0, s => s
  | fuel + 1, s =>
    match pop_min s.heap with
    | none => s
    | some (nd, heap') =>
      if s.visited.getD nd.index false then
        fct_loop g targets fuel { s with heap := heap' }
      else
        let visited' := s.visited.set nd.index true
        let connected' :=
          if targets.contains nd.index then s.connected ++ [nd.index] else s.connected
        let heap'' := (g.getD nd.index []).foldl (fun (h : List Node) neighbor =>
          if !(visited'.getD neighbor.index false) then
            h ++ [Node.mk neighbor.index (nd.distance + neighbor.index)]
          else h) heap'
        fct_loop g targets fuel ⟨visited', heap'', connected'⟩

/-- Mirrors `fn find_connected_targets`. -/
def find_connected_targets (g : List (List Node)) (start : Nat) (targets : List Nat) :
    List Nat :=
  (fct_loop g targets (1 + total_deg g)
    ⟨List.replicate g.length false, [Node.mk start 0], []⟩).connected

/-- Mirrors `BestPath::shortest_path`, the planner entry point: swap the
requested coordinates, normalise (and optionally fill), shift the targets and
the start by the box origin, build the graph, filter the targets by
reachability and route.  `none` models a panic or a nonterminating router
run; `some [[]] ` is the defined error sentinel. -/
def shortest_path (bc : TileType → Nat) (disc : Nat → Nat → Tile)
    (nodi_conosciuti : List ((Int × Int) × Tile)) (nodi_interesse : List (Int × Int))
    (starting_node : Int × Int) (discover : Bool) :
    Option (List (List Direction)) :=
  let nodi_interesse_swapped := nodi_interesse.map (fun nodo => (nodo.2, nodo.1))
  match from_vec_to_matrix bc disc nodi_conosciuti nodi_interesse_swapped starting_node discover with
  | none => none
  | some r =>
    let matrix := r.1
    let minx := r.2.1
    let miny := r.2.2
    let nodi_interesse_corrected :=
      nodi_interesse_swapped.map (fun nodo => (nodo.1 - minx, nodo.2 - miny))
    let coordinates := get_coordinates matrix
    let corrected_starting_node := (starting_node.2 - minx, starting_node.1 - miny)
    let cm := change_matrix bc matrix nodi_interesse_corrected corrected_starting_node
    let matrix_node := cm.1
    let target_nodes := find_connected_targets matrix_node cm.2.2 cm.2.1
    match build_path matrix_node cm.2.2 target_nodes coordinates with
    | none => none
    | some (.error _) => some [[]]
    | some (.ok results) => some results

/-- Replay of one direction on a coordinate (rows grow downward exactly as in
the delta classification of `path_to_directions`). -/
def apply_direction (p : Int × Int) : Direction → Int × Int
  | .Up => (p.1 - 1, p.2)
  | .Down => (p.1 + 1, p.2)
  | .Left => (p.1, p.2 - 1)
  | .Right => (p.1, p.2 + 1)

/-- Replay of a whole direction segment from a starting coordinate. -/
def replay (p : Int × Int) (dirs : List Direction) : Int × Int :=
  dirs.foldl apply_direction p

/-- Coordinate pair cast to the replay domain. -/
def int_pair (p : Nat × Nat) : Int × Int := ((p.1 : Int), (p.2 : Int))

/-- Reachability in the adjacency graph: the reflexive-transitive closure of
the edge relation recorded in the adjacency lists. -/
inductive reach (g : List (List Node)) (start : Nat) : Nat → Prop
  | refl : reach g start start
  | step {u v w : Nat} : reach g start u → Node.mk v w ∈ g.getD u [] → reach g start v

/-- Divergence of the router loop at a given input: no amount of fuel makes
the loop of `fn build_path` return. -/
def build_path_diverges (g : List (List Node)) (coordinates : Nat → Option (Nat × Nat))
    (start : Nat) (target_nodes : List Nat) : Prop :=
  ∀ fuel, build_path_loop g coordinates fuel start target_nodes [] = none

/-- Sum of the edge weights leaving vertex `u`. -/
def vertex_weight (g : List (List Node)) (u : Nat) : Nat :=
  ((g.getD u []).map Node.distance).sum

/-- Sum of all edge weights of the graph; when it stays below the `i32::MAX`
sentinel, every tentative distance the Dijkstra loop ever compares is below
the sentinel too. -/
def weight_total (g : List (List Node)) : Nat :=
  ∑ u ∈ Finset.range g.length, vertex_weight g u

/-- Sum of the edge weights leaving visited vertices. -/
def visited_weight (g : List (List Node)) (visited : List Bool) : Nat :=
  ∑ u ∈ Finset.range g.length,
    (if visited.getD u false = true then vertex_weight g u else 0)

/-- Number of adjacency entries of not-yet-visited vertices; together with
the heap size it bounds the remaining loop iterations of both priority
traversals. -/
def unvisited_deg (g : List (List Node)) (visited : List Bool) : Nat :=
  ∑ u ∈ Finset.range g.length,
    (if visited.getD u false = true then 0 else (g.getD u []).length)

/-- Loop invariant of the reachability traversal: visited vertices and heap
entries are reachable from the start, visited vertices have all their
out-edges accounted for (endpoint visited or still queued), the start is
accounted for, and the collected list is exactly the visited requested
targets, without duplicates. -/
def fct_inv (g : List (List Node)) (start : Nat) (targets : List Nat) (s : CState) : Prop :=
  s.visited.length = g.length ∧
  (∀ v, s.visited.getD v false = true → reach g start v) ∧
  (∀ nd ∈ s.heap, nd.index < g.length ∧ reach g start nd.index) ∧
  (∀ u, s.visited.getD u false = true → ∀ nd ∈ g.getD u [],
    s.visited.getD nd.index false = true ∨ nd.index ∈ s.heap.map Node.index) ∧
  (s.visited.getD start false = true ∨ start ∈ s.heap.map Node.index) ∧
  (∀ v, v ∈ s.connected ↔ v ∈ targets ∧ s.visited.getD v false = true) ∧
  s.connected.Nodup

/-- Loop invariant of the Dijkstra traversal, sized by `n = g.length`:
array lengths; the start's distance is 0 and it has no predecessor;
a vertex has a recorded distance exactly when it is the start or has a
predecessor; predecessors are in-bounds visited vertices; heap entries are
in-bounds and their key dominates the recorded distance of their vertex;
every visited vertex has a recorded distance no larger than any key still
queued; queued keys are bounded by the weight of the visited region; the
out-edges of visited vertices have recorded distances; a vertex with a
recorded distance is visited or still queued; and every in-bounds vertex
has a terminating, duplicate-free predecessor walk whose tail is
visited. -/
def dijkstra_inv (g : List (List Node)) (start : Nat) (s : DState) : Prop :=
  s.dist.length = g.length ∧ s.pred.length = g.length ∧ s.visited.length = g.length ∧
  s.dist.getD start none = some 0 ∧
  s.pred.getD start none = none ∧
  (∀ v, (s.dist.getD v none).isSome ↔ (v = start ∨ (s.pred.getD v none).isSome)) ∧
  (∀ v p, s.pred.getD v none = some p → p < g.length ∧ s.visited.getD p false = true) ∧
  (∀ e ∈ s.heap, e.index < g.length ∧
    ∃ d, s.dist.getD e.index none = some d ∧ d ≤ e.distance) ∧
  (∀ v, s.visited.getD v false = true →
    ∃ d, s.dist.getD v none = some d ∧ ∀ e ∈ s.heap, d ≤ e.distance) ∧
  (∀ e ∈ s.heap, e.distance ≤ visited_weight g s.visited) ∧
  (∀ u, s.visited.getD u false = true → ∀ nd ∈ g.getD u [],
    (s.dist.getD nd.index none).isSome) ∧
  (∀ v, (s.dist.getD v none).isSome →
    s.visited.getD v false = true ∨ v ∈ s.heap.map Node.index) ∧
  (∀ v, v < g.length → ∃ chain, walk_back s.pred (g.length + 1) v = some chain ∧
    chain.Nodup ∧ ∀ c ∈ chain.tail, s.visited.getD c false = true)

/-- Edge weight as worded by the specification: the destination's terrain
cost plus the squared elevation difference when the destination is strictly
higher, else plus 0. -/
def edge_weight_spec (bc : TileType → Nat) (src dst : Tile) : Nat :=
  bc dst.tile_type +
    (if src.elevation < dst.elevation then (dst.elevation - src.elevation) ^ 2 else 0)

/-- Neighbour list as worded by the specification: for each of the four
in-bounds 4-neighbours of `(x, y)`, an edge to it exactly when it is
walkable, weighted by `edge_weight_spec`, in the source's emission order
(bottom, right, top, left). -/
def neighbours_spec (bc : TileType → Nat) (m : List (List Tile)) (x y : Nat) : List Node :=
  let cols := (m.headD []).length
  let cell := fun i j => ((m.getD i []).getD j default_tile)
  let src := cell x y
  let entry := fun (i j : Nat) =>
    if is_wakable (cell i j) then
      [Node.mk (i * cols + j) (edge_weight_spec bc src (cell i j))]
    else []
  (if 1 ≤ x then entry (x-1) y else []) ++
  (if y + 1 < cols then entry x (y+1) else []) ++
  (if x + 1 < m.length then entry (x+1) y else []) ++
  (if 1 ≤ y then entry x (y-1) else [])

/-- Live mask of the filler when it is about to process row `i` (rows
`0..i-1` already done). -/
def filler_row_mask (bc : TileType → Nat) (disc : Nat → Nat → Tile)
    (mask0 : List (List (Tile × Bool))) (i : Nat) : List (List (Tile × Bool)) :=
  (fill_rows bc disc mask0 0 i).2.1

/-- Live mask of the filler when it is about to process cell `(i, j)` (rows
`0..i-1` done, and the first `j` cells of row `i`'s snapshot done). -/
def mask_before (bc : TileType → Nat) (disc : Nat → Nat → Tile)
    (mask0 : List (List (Tile × Bool))) (i j : Nat) : List (List (Tile × Bool)) :=
  (fill_row bc disc i (filler_row_mask bc disc mask0 i)
    (((filler_row_mask bc disc mask0 i).getD i []).take j) 0).2.1

/-- Resolved cell `(i, j)` of the filler's output matrix. -/
def filler_cell_out (bc : TileType → Nat) (disc : Nat → Nat → Tile)
    (mask0 : List (List (Tile × Bool))) (i j : Nat) : Tile × Bool :=
  (((fill_pass bc disc mask0).1.getD i []).getD j (default_tile, false))

/-- All discovery requests issued by the filler pass, in order. -/
def filler_reqs (bc : TileType → Nat) (disc : Nat → Nat → Tile)
    (mask0 : List (List (Tile × Bool))) : List (Nat × Nat) :=
  (fill_pass bc disc mask0).2.2.2

/-- Running minimum of a coordinate list from a given initial value. -/
def fold_min (l : List Int) (init : Int) : Int := l.foldl min init

/-- Running maximum of a coordinate list from a given initial value. -/
def fold_max (l : List Int) (init : Int) : Int := l.foldl max init

/-- First coordinates that enter the normaliser's bounding box, in the order
the source visits them: every target's first coordinate, the transposed
start's first coordinate (`starting_node.1` of the source, our `.2`), then
every known record's first coordinate. -/
def norm_xs (nodi_conosciuti : List ((Int × Int) × Tile)) (nodi_interesse : List (Int × Int))
    (starting_node : Int × Int) : List Int :=
  nodi_interesse.map Prod.fst ++ [starting_node.2] ++
    nodi_conosciuti.map (fun nodo => nodo.1.1)

/-- Second coordinates entering the bounding box (see `norm_xs`). -/
def norm_ys (nodi_conosciuti : List ((Int × Int) × Tile)) (nodi_interesse : List (Int × Int))
    (starting_node : Int × Int) : List Int :=
  nodi_interesse.map Prod.snd ++ [starting_node.1] ++
    nodi_conosciuti.map (fun nodo => nodo.1.2)

/-- Smallest first coordinate entering the box (capped by `i32::MAX`, the
source's fold initialiser). -/
def norm_min_x (nodi_conosciuti : List ((Int × Int) × Tile))
    (nodi_interesse : List (Int × Int)) (starting_node : Int × Int) : Int :=
  fold_min (norm_xs nodi_conosciuti nodi_interesse starting_node) 2147483647

/-- Smallest second coordinate entering the box (capped by `i32::MAX`). -/
def norm_min_y (nodi_conosciuti : List ((Int × Int) × Tile))
    (nodi_interesse : List (Int × Int)) (starting_node : Int × Int) : Int :=
  fold_min (norm_ys nodi_conosciuti nodi_interesse starting_node) 2147483647

/-- Largest first coordinate entering the box, clamped below at 0 (the
source initialises the maxima to 0, not to the inputs' maximum). -/
def norm_max_x (nodi_conosciuti : List ((Int × Int) × Tile))
    (nodi_interesse : List (Int × Int)) (starting_node : Int × Int) : Int :=
  fold_max (norm_xs nodi_conosciuti nodi_interesse starting_node) 0

/-- Largest second coordinate entering the box, clamped below at 0. -/
def norm_max_y (nodi_conosciuti : List ((Int × Int) × Tile))
    (nodi_interesse : List (Int × Int)) (starting_node : Int × Int) : Int :=
  fold_max (norm_ys nodi_conosciuti nodi_interesse starting_node) 0

/-- Number of rows the normaliser allocates. -/
def norm_rows (nodi_conosciuti : List ((Int × Int) × Tile))
    (nodi_interesse : List (Int × Int)) (starting_node : Int × Int) : Nat :=
  (norm_max_x nodi_conosciuti nodi_interesse starting_node -
    norm_min_x nodi_conosciuti nodi_interesse starting_node + 1).toNat

/-- Number of columns the normaliser allocates. -/
def norm_cols (nodi_conosciuti : List ((Int × Int) × Tile))
    (nodi_interesse : List (Int × Int)) (starting_node : Int × Int) : Nat :=
  (norm_max_y nodi_conosciuti nodi_interesse starting_node -
    norm_min_y nodi_conosciuti nodi_interesse starting_node + 1).toNat

/-- The tile of the known record that ends up on matrix position `(r, c)`:
the LAST record whose placement row `y - i_min_y` and column `x - i_min_x`
equal `(r, c)` (later records overwrite earlier ones), or `none` when no
record lands there. -/
def known_at (nodi_conosciuti : List ((Int × Int) × Tile)) (i_min_x i_min_y : Int)
    (r c : Nat) : Option Tile :=
  nodi_conosciuti.foldl (fun acc nodo =>
    if 0 ≤ nodo.1.2 - i_min_y ∧ 0 ≤ nodo.1.1 - i_min_x ∧
       (nodo.1.2 - i_min_y).toNat = r ∧ (nodo.1.1 - i_min_x).toNat = c
    then some nodo.2 else acc) none

end BestPath

namespace BestPath

/-! Basic facts about the tile-level helpers. -/

theorem get_cost_of_wakable (bc : TileType → Nat) (t : Tile) (h : is_wakable t = true) :
    get_cost bc t = bc t.tile_type := by
  cases ht : t.tile_type <;> simp [is_wakable, ht] at h ⊢ <;> simp [get_cost, ht]

theorem get_cost_elevation_eq (dst src : Tile) :
    get_cost_elevation dst src =
      (if src.elevation < dst.elevation then (dst.elevation - src.elevation) ^ 2 else 0) := by
  unfold get_cost_elevation
  split <;> split <;> omega

/-- claim C9: a planning call with an empty target coordinate list fails
fatally (the source panics on its very first check, before any matrix, graph
or path computation): the embedded `from_vec_to_matrix` returns `none` for
every choice of the remaining inputs. -/
theorem c9_empty_targets_abort (bc : TileType → Nat) (disc : Nat → Nat → Tile)
    (nodi_conosciuti : List ((Int × Int) × Tile)) (starting_node : Int × Int)
    (discover : Bool) :
    from_vec_to_matrix bc disc nodi_conosciuti [] starting_node discover = none := by
  rfl

theorem find_max_all_zero (bc : TileType → Nat) (l : List (Option Tile))
    (h : l.all (fun o => match o with | some t => bc t.tile_type = 0 | none => true) = true) :
    find_max_in_tuple bc l = none := by
  unfold find_max_in_tuple
  split
  · rfl
  · have key : ∀ (l' : List (Option Tile)),
        l'.all (fun o => match o with | some t => bc t.tile_type = 0 | none => true) = true →
        l'.foldl (fun (acc : Option Tile × Nat) tile_option =>
          match tile_option with
          | some tile =>
            if bc tile.tile_type > acc.2 then (some tile, bc tile.tile_type) else acc
          | none => acc) ((none : Option Tile), 0) = (none, 0) := by
      intro l' hl'
      induction l' with
      | nil => rfl
      | cons o rest ih =>
        simp only [List.all_cons, Bool.and_eq_true] at hl'
        cases o with
        | none => simpa using ih hl'.2
        | some t =>
          have h0 : bc t.tile_type = 0 := by
            have := hl'.1
            simpa using this
          simp only [List.foldl_cons, h0]
          simpa using ih hl'.2
    rw [key l h]

/-- claim C10: a known neighbour tile of terrain cost 0 is invisible to the
maximum-cost selection, so an unknown cell all of whose known 8-connected
neighbours have terrain cost 0 is treated as having no known neighbour: the
filler issues a single-cell discovery request for it (overwriting the cell
with the discovered tile and marking it known) instead of estimating. -/
theorem c10_zero_cost_neighbours_discover (bc : TileType → Nat)
    (disc : Nat → Nat → Tile) (mask : List (List (Tile × Bool))) (i j : Nat) (val : Tile)
    (h : (show_neighbor mask (i : Int) (j : Int)).all
      (fun o => match o with | some t => bc t.tile_type = 0 | none => true) = true) :
    find_max_in_tuple bc (show_neighbor mask (i : Int) (j : Int)) = none ∧
    fill_cell bc disc mask i j val false =
      ((disc i j, true), update2 mask i j (disc i j, true), 1, [(i, j)]) := by
  have hm := find_max_all_zero bc _ h
  refine ⟨hm, ?_⟩
  unfold fill_cell
  simp [hm]

/-- Witness for C10: a concrete unknown cell whose only known neighbour has
terrain cost 0 under the ambient cost function; the theorem applies and the
filler discovers. -/
theorem c10_witness :
    find_max_in_tuple (fun _ => 0)
      (show_neighbor [[(⟨TileType.Grass, 0⟩, true), (⟨TileType.Lava, 0⟩, false)]]
        (0 : Int) (1 : Int)) = none ∧
    fill_cell (fun _ => 0) (fun _ _ => ⟨TileType.Sand, 0⟩)
      [[(⟨TileType.Grass, 0⟩, true), (⟨TileType.Lava, 0⟩, false)]] 0 1 ⟨TileType.Lava, 0⟩ false =
      ((⟨TileType.Sand, 0⟩, true),
       update2 [[(⟨TileType.Grass, 0⟩, true), (⟨TileType.Lava, 0⟩, false)]] 0 1
         (⟨TileType.Sand, 0⟩, true), 1, [(0, 1)]) :=
  c10_zero_cost_neighbours_discover (fun _ => 0) (fun _ _ => ⟨TileType.Sand, 0⟩)
    [[(⟨TileType.Grass, 0⟩, true), (⟨TileType.Lava, 0⟩, false)]] 0 1 ⟨TileType.Lava, 0⟩
    (by decide)

/-- claim C2: the router loop of `fn build_path` does NOT terminate when the
minimum-total-cost candidate has no path.  At the concrete failing input — a
one-vertex graph with the start vertex itself as the only requested target —
the candidate has `path = None` (and sentinel cost 0), the `if let` falls
through without dropping it, and the loop state never changes: no fuel
suffices. -/
theorem c2_build_path_loop_diverges :
    build_path_diverges [[]] (fun _ => some (0, 0)) 0 [0] := by
  intro fuel
  induction fuel with
  | zero => rfl
  | succ n ih => exact ih

/-! Lemmas on the predecessor walk and direction translation, for C1. -/

theorem walk_back_head (predecessor : List (Option Nat)) :
    ∀ (fuel cur : Nat) (l : List Nat),
      walk_back predecessor fuel cur = some l → l.head? = some cur := by
  intro fuel
  induction fuel with
  | zero => intro cur l h; cases h
  | succ n ih =>
    intro cur l h
    unfold walk_back at h
    split at h
    · split at h
      · cases h; rfl
      · cases h
    · cases h; rfl

theorem reconstruct_getLast (predecessor : List (Option Nat)) (target : Nat)
    (p : List Nat) (h : reconstruct_shortest_path predecessor target = some p) :
    p.getLast? = some target ∧ p ≠ [] := by
  unfold reconstruct_shortest_path at h
  cases hw : walk_back predecessor (predecessor.length + 1) target with
  | none => rw [hw] at h; cases h
  | some l =>
    rw [hw] at h
    simp only at h
    split at h
    · cases h
    · split at h
      · cases h
      · cases h
        constructor
        · rw [List.getLast?_reverse]
          exact walk_back_head predecessor _ _ l hw
        · intro hnil
          rename_i hlen _
          rw [hnil] at hlen
          simp at hlen

theorem path_to_directions_replay (coordinates : Nat → Option (Nat × Nat)) :
    ∀ (l : List Nat) (dirs : List Direction) (a b : Nat) (ca cb : Nat × Nat),
      path_to_directions coordinates l = .ok dirs →
      l.head? = some a → l.getLast? = some b →
      coordinates a = some ca → coordinates b = some cb →
      replay (int_pair ca) dirs = int_pair cb := by
  intro l
  induction l with
  | nil => intro dirs a b ca cb _ hh; cases hh
  | cons x xs ih =>
    intro dirs a b ca cb hok hh hl hca hcb
    cases hh
    cases xs with
    | nil =>
      have : dirs = [] := by
        simpa [path_to_directions] using hok.symm
      subst this
      simp only [List.getLast?_singleton] at hl
      cases hl
      rw [hca] at hcb
      cases hcb
      rfl
    | cons y ys =>
      unfold path_to_directions at hok
      rw [hca] at hok
      cases hcy : coordinates y with
      | none => rw [hcy] at hok; cases hok
      | some nc =>
        rw [hcy] at hok
        simp only at hok
        have hstep : ∀ (d : Direction) (rest : List Direction),
            dirs = d :: rest →
            path_to_directions coordinates (y :: ys) = .ok rest →
            apply_direction (int_pair ca) d = int_pair nc →
            replay (int_pair ca) dirs = int_pair cb := by
          intro d rest hd hrest happ
          subst hd
          have hl' : (y :: ys).getLast? = some b := by
            rw [List.getLast?_cons_cons] at hl
            exact hl
          have := ih rest y b nc cb hrest rfl hl' hcy hcb
          simpa [replay, happ] using this
        by_cases h1 : ((nc.1 : Int) - (ca.1 : Int) = -1 ∧ (nc.2 : Int) - (ca.2 : Int) = 0)
        · rw [if_pos h1] at hok
          cases hrec : path_to_directions coordinates (y :: ys) with
          | error e => rw [hrec] at hok; cases hok
          | ok rest =>
            rw [hrec] at hok
            cases hok
            refine hstep _ _ rfl hrec ?_
            have e1 : (nc.1 : Int) = (ca.1 : Int) - 1 := by omega
            have e2 : (nc.2 : Int) = (ca.2 : Int) := by omega
            simp [apply_direction, int_pair, e1, e2]
        · rw [if_neg h1] at hok
          by_cases h2 : ((nc.1 : Int) - (ca.1 : Int) = 1 ∧ (nc.2 : Int) - (ca.2 : Int) = 0)
          · rw [if_pos h2] at hok
            cases hrec : path_to_directions coordinates (y :: ys) with
            | error e => rw [hrec] at hok; cases hok
            | ok rest =>
              rw [hrec] at hok
              cases hok
              refine hstep _ _ rfl hrec ?_
              have e1 : (nc.1 : Int) = (ca.1 : Int) + 1 := by omega
              have e2 : (nc.2 : Int) = (ca.2 : Int) := by omega
              simp [apply_direction, int_pair, e1, e2]
          · rw [if_neg h2] at hok
            by_cases h3 : ((nc.1 : Int) - (ca.1 : Int) = 0 ∧ (nc.2 : Int) - (ca.2 : Int) = -1)
            · rw [if_pos h3] at hok
              cases hrec : path_to_directions coordinates (y :: ys) with
              | error e => rw [hrec] at hok; cases hok
              | ok rest =>
                rw [hrec] at hok
                cases hok
                refine hstep _ _ rfl hrec ?_
                have e1 : (nc.1 : Int) = (ca.1 : Int) := by omega
                have e2 : (nc.2 : Int) = (ca.2 : Int) - 1 := by omega
                simp [apply_direction, int_pair, e1, e2]
            · rw [if_neg h3] at hok
              by_cases h4 : ((nc.1 : Int) - (ca.1 : Int) = 0 ∧ (nc.2 : Int) - (ca.2 : Int) = 1)
              · rw [if_pos h4] at hok
                cases hrec : path_to_directions coordinates (y :: ys) with
                | error e => rw [hrec] at hok; cases hok
                | ok rest =>
                  rw [hrec] at hok
                  cases hok
                  refine hstep _ _ rfl hrec ?_
                  have e1 : (nc.1 : Int) = (ca.1 : Int) := by omega
                  have e2 : (nc.2 : Int) = (ca.2 : Int) + 1 := by omega
                  simp [apply_direction, int_pair, e1, e2]
              · rw [if_neg h4] at hok
                cases hok

/-- claim C1: every emitted direction segment, replayed move-by-move from the
segment's start coordinate, lands exactly on the segment's target coordinate.
A segment of the router is `path_to_directions` applied to a path produced by
`reconstruct_shortest_path` for its target, whose last node is that target;
replaying the resulting directions from the coordinate of the path's first
node reaches the coordinate of the target. -/
theorem c1_segment_replay (predecessor : List (Option Nat)) (target : Nat)
    (coordinates : Nat → Option (Nat × Nat)) (p : List Nat) (dirs : List Direction)
    (h0 : Nat) (c0 ct : Nat × Nat)
    (hrec : reconstruct_shortest_path predecessor target = some p)
    (hdirs : path_to_directions coordinates p = .ok dirs)
    (hhead : p.head? = some h0)
    (hc0 : coordinates h0 = some c0) (hct : coordinates target = some ct) :
    replay (int_pair c0) dirs = int_pair ct := by
  have hlast := (reconstruct_getLast predecessor target p hrec).1
  exact path_to_directions_replay coordinates p dirs h0 target c0 ct hdirs hhead hlast hc0 hct

/-- Witness for C1 at a concrete input: predecessor array `[none, some 0]`,
target 1, a two-cell coordinate map; the reconstructed path `[0, 1]`
translates to `[Right]`, and replaying from `(0,0)` lands on `(0,1)`. -/
theorem c1_witness :
    reconstruct_shortest_path [none, some 0] 1 = some [0, 1] ∧
    replay (int_pair (0, 0)) [Direction.Right] = int_pair (0, 1) :=
  ⟨by decide,
   c1_segment_replay [none, some 0] 1
     (fun k => if k = 0 then some (0, 0) else if k = 1 then some (0, 1) else none)
     [0, 1] [Direction.Right] 0 (0, 0) (0, 1) (by decide) rfl rfl rfl rfl⟩

theorem node_weight_eq (bc : TileType → Nat) (src t : Tile) (i : Nat)
    (hw : is_wakable t = true) :
    (if t.elevation = 0 then Node.mk i (get_cost bc t)
     else Node.mk i (get_cost bc t + get_cost_elevation t src)) =
    Node.mk i (edge_weight_spec bc src t) := by
  rw [get_cost_of_wakable bc t hw]
  unfold edge_weight_spec
  rw [get_cost_elevation_eq]
  split
  · rename_i h0
    have hlt : ¬ src.elevation < t.elevation := by omega
    simp [hlt]
  · rfl

/-- claim C3: for every in-bounds cell of a rectangular matrix, the emitted
neighbour list is exactly the specification's: one edge per in-bounds
4-neighbour if and only if that destination is walkable, weighted by the
destination's terrain cost plus the squared elevation difference when the
destination is strictly higher (else plus 0).  The `value` argument is the
cell's row-major index, as at the unique call site in `change_matrix`; note
the emission never consults the source cell's own walkability (the caller
guards it). -/
theorem c3_edge_emission (bc : TileType → Nat) (m : List (List Tile)) (x y : Nat)
    (hx : x < m.length) (hy : y < (m.headD []).length) :
    get_neighbours bc m x y (x * (m.headD []).length + y) ((m.getD x []).getD y default_tile) =
      neighbours_spec bc m x y := by
  unfold get_neighbours neighbours_spec
  dsimp only
  congr 1
  · congr 1
    · congr 1
      · -- bottom neighbour (x-1, y)
        by_cases h1 : 1 ≤ x
        · rw [if_pos ⟨h1, by omega, hy⟩, if_pos h1]
          by_cases hwk : is_wakable ((m.getD (x-1) []).getD y default_tile) = true
          · rw [if_pos hwk, if_pos hwk]
            have hidx : x * (m.headD []).length + y - (m.headD []).length =
                (x - 1) * (m.headD []).length + y := by
              obtain ⟨x', rfl⟩ : ∃ x', x = x' + 1 := ⟨x - 1, by omega⟩
              simp only [Nat.add_sub_cancel, Nat.succ_mul]
              omega
            rw [hidx, node_weight_eq bc _ _ _ hwk]
          · rw [if_neg hwk, if_neg hwk]
        · rw [if_neg (by omega : ¬ (1 ≤ x ∧ x - 1 < m.length ∧ y < (m.headD []).length)),
              if_neg h1]
      · -- right neighbour (x, y+1)
        by_cases h2 : y + 1 < (m.headD []).length
        · rw [if_pos ⟨hx, h2⟩, if_pos h2]
          by_cases hwk : is_wakable ((m.getD x []).getD (y+1) default_tile) = true
          · rw [if_pos hwk, if_pos hwk]
            have hidx : x * (m.headD []).length + y + 1 =
                x * (m.headD []).length + (y + 1) := by omega
            rw [hidx, node_weight_eq bc _ _ _ hwk]
          · rw [if_neg hwk, if_neg hwk]
        · rw [if_neg (by omega : ¬ (x < m.length ∧ y + 1 < (m.headD []).length)), if_neg h2]
    · -- top neighbour (x+1, y)
      by_cases h3 : x + 1 < m.length
      · rw [if_pos ⟨h3, hy⟩, if_pos h3]
        by_cases hwk : is_wakable ((m.getD (x+1) []).getD y default_tile) = true
        · rw [if_pos hwk, if_pos hwk]
          have hidx : x * (m.headD []).length + y + (m.headD []).length =
              (x + 1) * (m.headD []).length + y := by
            rw [Nat.succ_mul]
            omega
          rw [hidx, node_weight_eq bc _ _ _ hwk]
        · rw [if_neg hwk, if_neg hwk]
      · rw [if_neg (by omega : ¬ (x + 1 < m.length ∧ y < (m.headD []).length)), if_neg h3]
  · -- left neighbour (x, y-1)
    by_cases h4 : 1 ≤ y
    · rw [if_pos ⟨hx, h4, by omega⟩, if_pos h4]
      by_cases hwk : is_wakable ((m.getD x []).getD (y-1) default_tile) = true
      · rw [if_pos hwk, if_pos hwk]
        have hidx : x * (m.headD []).length + y - 1 = x * (m.headD []).length + (y - 1) := by
          omega
        rw [hidx, node_weight_eq bc _ _ _ hwk]
      · rw [if_neg hwk, if_neg hwk]
    · rw [if_neg (by omega : ¬ (x < m.length ∧ 1 ≤ y ∧ y - 1 < (m.headD []).length)),
          if_neg h4]

/-- Witness for C3 at a concrete input: a 1x2 matrix with a walkable source
and a walkable, elevated destination. -/
theorem c3_witness :
    get_neighbours (fun _ => 3) [[⟨TileType.Grass, 0⟩, ⟨TileType.Sand, 1⟩]] 0 0 0
        ⟨TileType.Grass, 0⟩ =
      neighbours_spec (fun _ => 3) [[⟨TileType.Grass, 0⟩, ⟨TileType.Sand, 1⟩]] 0 0 :=
  c3_edge_emission (fun _ => 3) [[⟨TileType.Grass, 0⟩, ⟨TileType.Sand, 1⟩]] 0 0
    (by decide) (by decide)

/-- Counterexample for C5: with every input coordinate negative (known cells
empty, one target `(-2,-2)`, start `(-3,-3)`) the minimal bounding box spans
two rows and two columns (coordinates -3..-2), but the normaliser initialises
both per-axis maxima to 0 instead of the inputs' maxima, so the allocated
matrix is 4x4 — the claim's "minimal bounding box" is violated exactly on
all-negative inputs. -/
theorem c5_counterexample :
    normalize_core [] [(-2, -2)] (-3, -3) =
      some (List.replicate 4 (List.replicate 4 lava_tile),
            List.replicate 4 (List.replicate 4 (lava_tile, false)), -3, -3) ∧
    (4 : Nat) ≠ 2 := by
  constructor
  · decide
  · decide

/-- Counterexample for C8: the two requested target entries `[1, 1]` resolve
to the same vertex 1; the reachability filter collapses them to a single
logical target, and the router consequently emits one segment, not one per
requested entry. -/
theorem c8_counterexample :
    find_connected_targets [[Node.mk 1 1], [Node.mk 0 1]] 0 [1, 1] = [1] ∧
    build_path [[Node.mk 1 1], [Node.mk 0 1]] 0 [1]
      (fun k => if k = 0 then some (0, 0) else if k = 1 then some (0, 1) else none) =
      some (.ok [[Direction.Right]]) ∧
    ([1, 1] : List Nat).length = 2 ∧
    ([[Direction.Right]] : List (List Direction)).length = 1 :=
  ⟨by decide, rfl, by decide, by decide⟩

/-- Counterexample for C4: an unknown cell `(0,1)` whose sole known
8-connected neighbour `(0,0)` has terrain cost 0 does NOT receive the
maximum-cost tile of its known neighbours and is NOT left unknown; the filler
instead issues a discovery request for it, overwrites it with the discovered
tile and marks it known (the strict `> 0` comparison of
`find_max_in_tuple` ignores cost-0 known neighbours). -/
theorem c4_counterexample :
    (show_neighbor [[(⟨TileType.Grass, 0⟩, true), (⟨TileType.Lava, 0⟩, false)]] 0 1).any
        (fun o => o.isSome) = true ∧
    fill_pass (fun _ => 0) (fun _ _ => ⟨TileType.Sand, 0⟩)
        [[(⟨TileType.Grass, 0⟩, true), (⟨TileType.Lava, 0⟩, false)]] =
      ([[(⟨TileType.Grass, 0⟩, true), (⟨TileType.Sand, 0⟩, true)]],
       [[(⟨TileType.Grass, 0⟩, true), (⟨TileType.Sand, 0⟩, true)]], 1, [(0, 1)]) := by
  constructor
  · decide
  · decide

/-! Structural lemmas about the filler pass, for claim C4. -/

theorem getD_set_ne {α : Type} (l : List α) (i r : Nat) (v d : α) (h : r ≠ i) :
    (l.set i v).getD r d = l.getD r d := by
  rw [List.getD_eq_getD_get?, List.getD_eq_getD_get?, List.get?_set_ne v l (fun he => h he.symm)]

theorem update2_row_ne {α : Type} (m : List (List α)) (i j : Nat) (v : α) (r : Nat)
    (h : r ≠ i) : (update2 m i j v).getD r [] = m.getD r [] := by
  unfold update2
  exact getD_set_ne m i r _ [] h

theorem fill_cell_row_ne (bc : TileType → Nat) (disc : Nat → Nat → Tile)
    (mask : List (List (Tile × Bool))) (i j : Nat) (val : Tile) (known : Bool) (r : Nat)
    (h : r ≠ i) :
    (fill_cell bc disc mask i j val known).2.1.getD r [] = mask.getD r [] := by
  unfold fill_cell
  split
  · dsimp only
    split
    · exact update2_row_ne mask i j _ r h
    · rfl
  · rfl

theorem fill_row_row_ne (bc : TileType → Nat) (disc : Nat → Nat → Tile) (i : Nat) :
    ∀ (snap : List (Tile × Bool)) (mask : List (List (Tile × Bool))) (j r : Nat),
      r ≠ i → (fill_row bc disc i mask snap j).2.1.getD r [] = mask.getD r [] := by
  intro snap
  induction snap with
  | nil => intro mask j r _; rfl
  | cons c rest ih =>
    intro mask j r hr
    show (fill_row bc disc i mask (c :: rest) j).2.1.getD r [] = mask.getD r []
    unfold fill_row
    dsimp only
    rw [ih _ _ _ hr, fill_cell_row_ne bc disc mask i j c.1 c.2 r hr]

theorem fill_rows_row_out (bc : TileType → Nat) (disc : Nat → Nat → Tile) :
    ∀ (k : Nat) (mask : List (List (Tile × Bool))) (i r : Nat),
      (r < i ∨ i + k ≤ r) →
      (fill_rows bc disc mask i k).2.1.getD r [] = mask.getD r [] := by
  intro k
  induction k with
  | zero => intro mask i r _; rfl
  | succ n ih =>
    intro mask i r hr
    show (fill_rows bc disc mask i (n + 1)).2.1.getD r [] = mask.getD r []
    unfold fill_rows
    dsimp only
    rw [ih _ (i + 1) r (by omega), fill_row_row_ne bc disc i _ mask 0 r (by omega)]

theorem fill_row_length (bc : TileType → Nat) (disc : Nat → Nat → Tile) (i : Nat) :
    ∀ (snap : List (Tile × Bool)) (mask : List (List (Tile × Bool))) (j : Nat),
      (fill_row bc disc i mask snap j).1.length = snap.length := by
  intro snap
  induction snap with
  | nil => intro mask j; rfl
  | cons c rest ih =>
    intro mask j
    show (fill_row bc disc i mask (c :: rest) j).1.length = rest.length + 1
    unfold fill_row
    dsimp only
    rw [List.length_cons, ih]

theorem fill_rows_length (bc : TileType → Nat) (disc : Nat → Nat → Tile) :
    ∀ (k : Nat) (mask : List (List (Tile × Bool))) (i : Nat),
      (fill_rows bc disc mask i k).1.length = k := by
  intro k
  induction k with
  | zero => intro mask i; rfl
  | succ n ih =>
    intro mask i
    show (fill_rows bc disc mask i (n + 1)).1.length = n + 1
    unfold fill_rows
    dsimp only
    rw [List.length_cons, ih]

theorem fill_row_append (bc : TileType → Nat) (disc : Nat → Nat → Tile) (i : Nat) :
    ∀ (l1 l2 : List (Tile × Bool)) (mask : List (List (Tile × Bool))) (j : Nat),
      fill_row bc disc i mask (l1 ++ l2) j =
        ((fill_row bc disc i mask l1 j).1 ++
           (fill_row bc disc i (fill_row bc disc i mask l1 j).2.1 l2 (j + l1.length)).1,
         (fill_row bc disc i (fill_row bc disc i mask l1 j).2.1 l2 (j + l1.length)).2.1,
         (fill_row bc disc i mask l1 j).2.2.1 +
           (fill_row bc disc i (fill_row bc disc i mask l1 j).2.1 l2 (j + l1.length)).2.2.1,
         (fill_row bc disc i mask l1 j).2.2.2 ++
           (fill_row bc disc i (fill_row bc disc i mask l1 j).2.1 l2 (j + l1.length)).2.2.2) := by
  intro l1
  induction l1 with
  | nil =>
    intro l2 mask j
    show fill_row bc disc i mask l2 j = _
    simp [fill_row]
  | cons c rest ih =>
    intro l2 mask j
    show fill_row bc disc i mask (c :: (rest ++ l2)) j = _
    conv_lhs => unfold fill_row
    conv_rhs => rw [show fill_row bc disc i mask (c :: rest) j =
      (let r := fill_cell bc disc mask i j c.1 c.2
       let rec_ := fill_row bc disc i r.2.1 rest (j + 1)
       (r.1 :: rec_.1, rec_.2.1, r.2.2.1 + rec_.2.2.1, r.2.2.2 ++ rec_.2.2.2)) from rfl]
    dsimp only
    rw [ih]
    have harg : j + (c :: rest).length = j + 1 + rest.length := by
      simp
      omega
    rw [harg]
    simp [Nat.add_assoc, List.append_assoc]

theorem fill_rows_split (bc : TileType → Nat) (disc : Nat → Nat → Tile) :
    ∀ (k1 k2 : Nat) (mask : List (List (Tile × Bool))) (i : Nat),
      fill_rows bc disc mask i (k1 + k2) =
        ((fill_rows bc disc mask i k1).1 ++
           (fill_rows bc disc (fill_rows bc disc mask i k1).2.1 (i + k1) k2).1,
         (fill_rows bc disc (fill_rows bc disc mask i k1).2.1 (i + k1) k2).2.1,
         (fill_rows bc disc mask i k1).2.2.1 +
           (fill_rows bc disc (fill_rows bc disc mask i k1).2.1 (i + k1) k2).2.2.1,
         (fill_rows bc disc mask i k1).2.2.2 ++
           (fill_rows bc disc (fill_rows bc disc mask i k1).2.1 (i + k1) k2).2.2.2) := by
  intro k1
  induction k1 with
  | zero =>
    intro k2 mask i
    simp only [Nat.zero_add, Nat.add_zero]
    simp [fill_rows]
  | succ n ih =>
    intro k2 mask i
    have hk : n + 1 + k2 = (n + k2) + 1 := by omega
    rw [hk]
    show fill_rows bc disc mask i ((n + k2) + 1) = _
    conv_lhs => unfold fill_rows
    conv_rhs => rw [show fill_rows bc disc mask i (n + 1) =
      (let snap := mask.getD i []
       let r := fill_row bc disc i mask snap 0
       let rec_ := fill_rows bc disc r.2.1 (i + 1) n
       (r.1 :: rec_.1, rec_.2.1, r.2.2.1 + rec_.2.2.1, r.2.2.2 ++ rec_.2.2.2)) from rfl]
    dsimp only
    rw [ih]
    have harg : i + (n + 1) = i + 1 + n := by omega
    rw [harg]
    simp [Nat.add_assoc, List.append_assoc]

theorem fill_row_cons (bc : TileType → Nat) (disc : Nat → Nat → Tile) (i : Nat)
    (mask : List (List (Tile × Bool))) (c : Tile × Bool) (rest : List (Tile × Bool)) (j : Nat) :
    fill_row bc disc i mask (c :: rest) j =
      ((fill_cell bc disc mask i j c.1 c.2).1 ::
         (fill_row bc disc i (fill_cell bc disc mask i j c.1 c.2).2.1 rest (j + 1)).1,
       (fill_row bc disc i (fill_cell bc disc mask i j c.1 c.2).2.1 rest (j + 1)).2.1,
       (fill_cell bc disc mask i j c.1 c.2).2.2.1 +
         (fill_row bc disc i (fill_cell bc disc mask i j c.1 c.2).2.1 rest (j + 1)).2.2.1,
       (fill_cell bc disc mask i j c.1 c.2).2.2.2 ++
         (fill_row bc disc i (fill_cell bc disc mask i j c.1 c.2).2.1 rest (j + 1)).2.2.2) :=
  rfl

theorem fill_rows_succ (bc : TileType → Nat) (disc : Nat → Nat → Tile)
    (mask : List (List (Tile × Bool))) (i k : Nat) :
    fill_rows bc disc mask i (k + 1) =
      ((fill_row bc disc i mask (mask.getD i []) 0).1 ::
         (fill_rows bc disc (fill_row bc disc i mask (mask.getD i []) 0).2.1 (i + 1) k).1,
       (fill_rows bc disc (fill_row bc disc i mask (mask.getD i []) 0).2.1 (i + 1) k).2.1,
       (fill_row bc disc i mask (mask.getD i []) 0).2.2.1 +
         (fill_rows bc disc (fill_row bc disc i mask (mask.getD i []) 0).2.1 (i + 1) k).2.2.1,
       (fill_row bc disc i mask (mask.getD i []) 0).2.2.2 ++
         (fill_rows bc disc (fill_row bc disc i mask (mask.getD i []) 0).2.1 (i + 1) k).2.2.2) :=
  rfl

theorem fill_cell_reqs (bc : TileType → Nat) (disc : Nat → Nat → Tile)
    (mask : List (List (Tile × Bool))) (i j : Nat) (val : Tile) (known : Bool) :
    (fill_cell bc disc mask i j val known).2.2.2 = [] ∨
    (fill_cell bc disc mask i j val known).2.2.2 = [(i, j)] := by
  unfold fill_cell
  split
  · dsimp only
    split
    · right; rfl
    · left; rfl
  · left; rfl

theorem fill_row_reqs_range (bc : TileType → Nat) (disc : Nat → Nat → Tile) (i : Nat) :
    ∀ (snap : List (Tile × Bool)) (mask : List (List (Tile × Bool))) (j : Nat)
      (p : Nat × Nat), p ∈ (fill_row bc disc i mask snap j).2.2.2 →
      p.1 = i ∧ j ≤ p.2 ∧ p.2 < j + snap.length := by
  intro snap
  induction snap with
  | nil => intro mask j p hp; cases hp
  | cons c rest ih =>
    intro mask j p hp
    rw [fill_row_cons] at hp
    dsimp only at hp
    rw [List.mem_append] at hp
    cases hp with
    | inl h1 =>
      cases fill_cell_reqs bc disc mask i j c.1 c.2 with
      | inl he => rw [he] at h1; cases h1
      | inr he =>
        rw [he] at h1
        simp only [List.mem_singleton] at h1
        subst h1
        refine ⟨rfl, le_refl j, ?_⟩
        simp
    | inr h2 =>
      have := ih _ (j + 1) p h2
      refine ⟨this.1, by omega, ?_⟩
      have h3 := this.2.2
      simp only [List.length_cons]
      omega

theorem fill_rows_reqs_range (bc : TileType → Nat) (disc : Nat → Nat → Tile) :
    ∀ (k : Nat) (mask : List (List (Tile × Bool))) (i : Nat) (p : Nat × Nat),
      p ∈ (fill_rows bc disc mask i k).2.2.2 → i ≤ p.1 ∧ p.1 < i + k := by
  intro k
  induction k with
  | zero => intro mask i p hp; cases hp
  | succ n ih =>
    intro mask i p hp
    rw [fill_rows_succ] at hp
    dsimp only at hp
    rw [List.mem_append] at hp
    cases hp with
    | inl h1 =>
      have := fill_row_reqs_range bc disc i _ mask 0 p h1
      omega
    | inr h2 =>
      have := ih _ (i + 1) p h2
      omega

/-- Decomposition of the filler pass at cell `(i, j)`: the output cell is the
result of `fill_cell` run against the live mask `mask_before`, on the value and
known flag the cell has in the pre-fill mask (rows before `i` never touch row
`i`, so the row snapshot equals the original row); and the only discovery
request the whole pass can issue for position `(i, j)` is the one this
`fill_cell` issues. -/
theorem filler_decomp (bc : TileType → Nat) (disc : Nat → Nat → Tile)
    (mask0 : List (List (Tile × Bool))) (i j : Nat)
    (hi : i < mask0.length) (hj : j < (mask0.getD i []).length) :
    filler_cell_out bc disc mask0 i j =
      (fill_cell bc disc (mask_before bc disc mask0 i j) i j
        ((mask0.getD i []).getD j (default_tile, false)).1
        ((mask0.getD i []).getD j (default_tile, false)).2).1 ∧
    (filler_reqs bc disc mask0).count (i, j) =
      ((fill_cell bc disc (mask_before bc disc mask0 i j) i j
        ((mask0.getD i []).getD j (default_tile, false)).1
        ((mask0.getD i []).getD j (default_tile, false)).2).2.2.2).count (i, j) := by
  have hsnap : ((fill_rows bc disc mask0 0 i).2.1).getD i [] = mask0.getD i [] :=
    fill_rows_row_out bc disc i mask0 0 i (Or.inr (by omega))
  have hmb : mask_before bc disc mask0 i j =
      (fill_row bc disc i (fill_rows bc disc mask0 0 i).2.1
        ((mask0.getD i []).take j) 0).2.1 := by
    unfold mask_before filler_row_mask
    rw [hsnap]
  generalize hc : (mask0.getD i []).getD j (default_tile, false) = c
  have hsplit1 : mask0.getD i [] =
      (mask0.getD i []).take j ++ (c :: (mask0.getD i []).drop (j + 1)) := by
    rw [← hc, List.getD_eq_getElem _ _ hj, ← List.drop_eq_getElem_cons hj]
    exact (List.take_append_drop j _).symm
  have hlen1 : (fill_rows bc disc mask0 0 i).1.length = i := fill_rows_length bc disc i mask0 0
  have hprelen : (fill_row bc disc i (fill_rows bc disc mask0 0 i).2.1
      ((mask0.getD i []).take j) 0).1.length = j := by
    rw [fill_row_length, List.length_take]
    omega
  have htakelen : (0 : Nat) + ((mask0.getD i []).take j).length = j := by
    rw [List.length_take]
    omega
  have hk : mask0.length = i + ((mask0.length - i - 1) + 1) := by omega
  constructor
  · unfold filler_cell_out fill_pass
    rw [hk, fill_rows_split bc disc i ((mask0.length - i - 1) + 1) mask0 0]
    dsimp only
    rw [Nat.zero_add, fill_rows_succ]
    dsimp only
    rw [hsnap,
        List.getD_append_right _ _ _ _ (le_of_eq hlen1),
        hlen1, Nat.sub_self, List.getD_cons_zero,
        hsplit1, fill_row_append, htakelen, fill_row_cons]
    dsimp only
    rw [List.getD_append_right _ _ _ _ (le_of_eq hprelen),
        hprelen, Nat.sub_self, List.getD_cons_zero, hmb]
  · unfold filler_reqs fill_pass
    rw [hk, fill_rows_split bc disc i ((mask0.length - i - 1) + 1) mask0 0]
    dsimp only
    rw [Nat.zero_add, fill_rows_succ]
    dsimp only
    rw [hsnap, hsplit1, fill_row_append, htakelen, fill_row_cons]
    dsimp only
    rw [List.count_append, List.count_append, List.count_append, List.count_append]
    have hz1 : (fill_rows bc disc mask0 0 i).2.2.2.count (i, j) = 0 := by
      rw [List.count_eq_zero]
      intro hmem
      have := fill_rows_reqs_range bc disc i mask0 0 (i, j) hmem
      omega
    have hz2 : (fill_row bc disc i (fill_rows bc disc mask0 0 i).2.1
        ((mask0.getD i []).take j) 0).2.2.2.count (i, j) = 0 := by
      rw [List.count_eq_zero]
      intro hmem
      have := fill_row_reqs_range bc disc i _ _ 0 (i, j) hmem
      have hlt := this.2.2
      rw [List.length_take] at hlt
      omega
    have hz3 : ∀ (m : List (List (Tile × Bool))),
        (fill_row bc disc i m ((mask0.getD i []).drop (j + 1)) (j + 1)).2.2.2.count (i, j)
          = 0 := by
      intro m
      rw [List.count_eq_zero]
      intro hmem
      have := fill_row_reqs_range bc disc i _ _ (j + 1) (i, j) hmem
      omega
    have hz4 : ∀ (m : List (List (Tile × Bool))),
        (fill_rows bc disc m (i + 1) (mask0.length - i - 1)).2.2.2.count (i, j) = 0 := by
      intro m
      rw [List.count_eq_zero]
      intro hmem
      have := fill_rows_reqs_range bc disc _ _ (i + 1) (i, j) hmem
      omega
    rw [hz1, hz2, hz3 _, hz4 _, ← hmb]
    omega

theorem find_max_foldl_spec (bc : TileType → Nat) :
    ∀ (l : List (Option Tile)) (acc : Option Tile × Nat),
      (l.foldl (fun (acc : Option Tile × Nat) tile_option =>
          match tile_option with
          | some tile =>
            if bc tile.tile_type > acc.2 then (some tile, bc tile.tile_type) else acc
          | none => acc) acc = acc ∧
        ∀ t, some t ∈ l → bc t.tile_type ≤ acc.2) ∨
      (∃ t, l.foldl (fun (acc : Option Tile × Nat) tile_option =>
          match tile_option with
          | some tile =>
            if bc tile.tile_type > acc.2 then (some tile, bc tile.tile_type) else acc
          | none => acc) acc = (some t, bc t.tile_type) ∧ some t ∈ l ∧
        acc.2 < bc t.tile_type ∧ ∀ u, some u ∈ l → bc u.tile_type ≤ bc t.tile_type) := by
  intro l
  induction l with
  | nil =>
    intro acc
    left
    exact ⟨rfl, by intro t ht; cases ht⟩
  | cons o rest ih =>
    intro acc
    cases o with
    | none =>
      rcases ih acc with ⟨h1, h2⟩ | ⟨t, h1, h2, h3, h4⟩
      · left
        refine ⟨by simpa using h1, ?_⟩
        intro t ht
        rcases List.mem_cons.mp ht with he | hm
        · cases he
        · exact h2 t hm
      · right
        refine ⟨t, by simpa using h1, List.mem_cons_of_mem _ h2, h3, ?_⟩
        intro u hu
        rcases List.mem_cons.mp hu with he | hm
        · cases he
        · exact h4 u hm
    | some t0 =>
      by_cases hgt : bc t0.tile_type > acc.2
      · have hstep : (rest.foldl (fun (acc : Option Tile × Nat) tile_option =>
            match tile_option with
            | some tile =>
              if bc tile.tile_type > acc.2 then (some tile, bc tile.tile_type) else acc
            | none => acc) ((some t0, bc t0.tile_type) : Option Tile × Nat)) =
            ((some t0 :: rest).foldl (fun (acc : Option Tile × Nat) tile_option =>
            match tile_option with
            | some tile =>
              if bc tile.tile_type > acc.2 then (some tile, bc tile.tile_type) else acc
            | none => acc) acc) := by
          simp [hgt]
        rcases ih (some t0, bc t0.tile_type) with ⟨h1, h2⟩ | ⟨t, h1, h2, h3, h4⟩
        · right
          refine ⟨t0, ?_, List.mem_cons_self _ _, hgt, ?_⟩
          · rw [← hstep, h1]
          · intro u hu
            rcases List.mem_cons.mp hu with he | hm
            · cases he; exact le_refl _
            · exact h2 u hm
        · right
          refine ⟨t, by rw [← hstep, h1], List.mem_cons_of_mem _ h2, by omega, ?_⟩
          intro u hu
          rcases List.mem_cons.mp hu with he | hm
          · cases he; omega
          · exact h4 u hm
      · have hstep : (rest.foldl (fun (acc : Option Tile × Nat) tile_option =>
            match tile_option with
            | some tile =>
              if bc tile.tile_type > acc.2 then (some tile, bc tile.tile_type) else acc
            | none => acc) acc) =
            ((some t0 :: rest).foldl (fun (acc : Option Tile × Nat) tile_option =>
            match tile_option with
            | some tile =>
              if bc tile.tile_type > acc.2 then (some tile, bc tile.tile_type) else acc
            | none => acc) acc) := by
          simp [hgt]
        rcases ih acc with ⟨h1, h2⟩ | ⟨t, h1, h2, h3, h4⟩
        · left
          refine ⟨by rw [← hstep, h1], ?_⟩
          intro u hu
          rcases List.mem_cons.mp hu with he | hm
          · cases he; omega
          · exact h2 u hm
        · right
          refine ⟨t, by rw [← hstep, h1], List.mem_cons_of_mem _ h2, h3, ?_⟩
          intro u hu
          rcases List.mem_cons.mp hu with he | hm
          · cases he; omega
          · exact h4 u hm

theorem find_max_some_spec (bc : TileType → Nat) (l : List (Option Tile)) (t : Tile)
    (h : find_max_in_tuple bc l = some t) :
    some t ∈ l ∧ 0 < bc t.tile_type ∧ ∀ u, some u ∈ l → bc u.tile_type ≤ bc t.tile_type := by
  unfold find_max_in_tuple at h
  split at h
  · cases h
  · rcases find_max_foldl_spec bc l (none, 0) with ⟨h1, _⟩ | ⟨t', h1, h2, h3, h4⟩
    · rw [h1] at h
      cases h
    · rw [h1] at h
      simp only at h
      cases h
      exact ⟨h2, h3, h4⟩

theorem find_max_none_spec (bc : TileType → Nat) (l : List (Option Tile))
    (h : find_max_in_tuple bc l = none) :
    ∀ u, some u ∈ l → bc u.tile_type = 0 := by
  unfold find_max_in_tuple at h
  split at h
  · rename_i hall
    intro u hu
    rw [List.all_eq_true] at hall
    have := hall _ hu
    simp at this
  · rcases find_max_foldl_spec bc l (none, 0) with ⟨h1, h2⟩ | ⟨t', h1, h2, h3, h4⟩
    · intro u hu
      have := h2 u hu
      omega
    · rw [h1] at h
      simp only at h
      cases h

/-- claim C4 (amended): with active discovery enabled the filler processes
every cell in row-major order; a known cell's tile is copied through
unchanged (and no discovery request is issued for it); an unknown cell with
at least one known 8-connected neighbour of POSITIVE terrain cost receives
the maximum-cost tile among its known neighbours and remains marked not
known; and an unknown cell all of whose known neighbours have terrain cost 0
(in particular one with no known neighbour at all) triggers exactly one
single-cell discovery request, whose result overwrites the cell and is marked
known.  Known neighbours are read from the live mask `mask_before`, i.e.
cells discovered earlier in the same pass count as known, while cells only
estimated earlier do not. -/
theorem c4_filler_behaviour (bc : TileType → Nat) (disc : Nat → Nat → Tile)
    (mask0 : List (List (Tile × Bool))) (i j : Nat)
    (hi : i < mask0.length) (hj : j < (mask0.getD i []).length) :
    (((mask0.getD i []).getD j (default_tile, false)).2 = true →
       filler_cell_out bc disc mask0 i j =
         (((mask0.getD i []).getD j (default_tile, false)).1, true) ∧
       (filler_reqs bc disc mask0).count (i, j) = 0) ∧
    (((mask0.getD i []).getD j (default_tile, false)).2 = false →
       (∀ u, find_max_in_tuple bc
            (show_neighbor (mask_before bc disc mask0 i j) (i : Int) (j : Int)) = some u →
          filler_cell_out bc disc mask0 i j = (u, false) ∧
          some u ∈ show_neighbor (mask_before bc disc mask0 i j) (i : Int) (j : Int) ∧
          0 < bc u.tile_type ∧
          (∀ v, some v ∈ show_neighbor (mask_before bc disc mask0 i j) (i : Int) (j : Int) →
             bc v.tile_type ≤ bc u.tile_type) ∧
          (filler_reqs bc disc mask0).count (i, j) = 0) ∧
       (find_max_in_tuple bc
            (show_neighbor (mask_before bc disc mask0 i j) (i : Int) (j : Int)) = none →
          (∀ v, some v ∈ show_neighbor (mask_before bc disc mask0 i j) (i : Int) (j : Int) →
             bc v.tile_type = 0) ∧
          filler_cell_out bc disc mask0 i j = (disc i j, true) ∧
          (filler_reqs bc disc mask0).count (i, j) = 1)) := by
  obtain ⟨hout, hcount⟩ := filler_decomp bc disc mask0 i j hi hj
  constructor
  · intro hk
    rw [hk] at hout hcount
    unfold fill_cell at hout hcount
    simp only [Bool.not_true, Bool.false_eq_true, if_false] at hout hcount
    refine ⟨hout, ?_⟩
    rw [hcount]
    rfl
  · intro hk
    rw [hk] at hout hcount
    unfold fill_cell at hout hcount
    simp only [Bool.not_false, if_true] at hout hcount
    constructor
    · intro u hu
      rw [hu] at hout hcount
      simp only at hout hcount
      have hspec := find_max_some_spec bc _ u hu
      refine ⟨hout, hspec.1, hspec.2.1, hspec.2.2, ?_⟩
      rw [hcount]
      rfl
    · intro hn
      rw [hn] at hout hcount
      simp only at hout hcount
      have hspec := find_max_none_spec bc _ hn
      refine ⟨hspec, hout, ?_⟩
      rw [hcount]
      simp

/-- Witness for C4 (amended) at a concrete input: a known cell is copied
through unchanged and triggers no discovery. -/
theorem c4_witness :
    filler_cell_out (fun _ => 1) (fun _ _ => ⟨TileType.Sand, 0⟩)
        [[(⟨TileType.Grass, 2⟩, true), (⟨TileType.Lava, 0⟩, false)]] 0 0 =
      (⟨TileType.Grass, 2⟩, true) ∧
    (filler_reqs (fun _ => 1) (fun _ _ => ⟨TileType.Sand, 0⟩)
        [[(⟨TileType.Grass, 2⟩, true), (⟨TileType.Lava, 0⟩, false)]]).count (0, 0) = 0 :=
  (c4_filler_behaviour (fun _ => 1) (fun _ _ => ⟨TileType.Sand, 0⟩)
    [[(⟨TileType.Grass, 2⟩, true), (⟨TileType.Lava, 0⟩, false)]] 0 0
    (by decide) (by decide)).1 (by decide)

/-! Bounding-box fold lemmas for the normaliser, claim C5. -/

theorem if_lt_eq_min (a x : Int) : (if x < a then x else a) = min a x := by
  rcases le_or_lt a x with h | h
  · rw [if_neg (by omega), min_eq_left h]
  · rw [if_pos h, min_eq_right (le_of_lt h)]

theorem if_gt_eq_max (a x : Int) : (if x > a then x else a) = max a x := by
  rcases le_or_lt x a with h | h
  · rw [if_neg (by omega), max_eq_left h]
  · rw [if_pos h, max_eq_right (le_of_lt h)]

theorem fold_min_cons (x : Int) (l : List Int) (a : Int) :
    fold_min (x :: l) a = fold_min l (min a x) := rfl

theorem fold_max_cons (x : Int) (l : List Int) (a : Int) :
    fold_max (x :: l) a = fold_max l (max a x) := rfl

theorem fold_min_min (l : List Int) : ∀ (a b : Int),
    fold_min l (min a b) = min a (fold_min l b) := by
  induction l with
  | nil => intro a b; rfl
  | cons c rest ih =>
    intro a b
    rw [fold_min_cons, fold_min_cons, min_assoc, ih]

theorem fold_max_max (l : List Int) : ∀ (a b : Int),
    fold_max l (max a b) = max a (fold_max l b) := by
  induction l with
  | nil => intro a b; rfl
  | cons c rest ih =>
    intro a b
    rw [fold_max_cons, fold_max_cons, max_assoc, ih]

theorem fold_min_append (l1 l2 : List Int) (a : Int) :
    fold_min (l1 ++ l2) a = fold_min l2 (fold_min l1 a) := by
  unfold fold_min
  exact List.foldl_append _ _ _ _

theorem fold_max_append (l1 l2 : List Int) (a : Int) :
    fold_max (l1 ++ l2) a = fold_max l2 (fold_max l1 a) := by
  unfold fold_max
  exact List.foldl_append _ _ _ _

theorem fold_min_le_init (l : List Int) : ∀ (a : Int), fold_min l a ≤ a := by
  induction l with
  | nil => intro a; exact le_refl a
  | cons c rest ih =>
    intro a
    rw [fold_min_cons]
    exact le_trans (ih (min a c)) (min_le_left a c)

theorem init_le_fold_max (l : List Int) : ∀ (a : Int), a ≤ fold_max l a := by
  induction l with
  | nil => intro a; exact le_refl a
  | cons c rest ih =>
    intro a
    rw [fold_max_cons]
    exact le_trans (le_max_left a c) (ih (max a c))

theorem fold_min_le_mem (l : List Int) : ∀ (a x : Int), x ∈ l → fold_min l a ≤ x := by
  induction l with
  | nil => intro a x hx; cases hx
  | cons c rest ih =>
    intro a x hx
    rcases List.mem_cons.mp hx with he | hm
    · subst he
      rw [fold_min_cons]
      exact le_trans (fold_min_le_init rest (min a x)) (min_le_right a x)
    · exact ih _ x hm

theorem mem_le_fold_max (l : List Int) : ∀ (a x : Int), x ∈ l → x ≤ fold_max l a := by
  induction l with
  | nil => intro a x hx; cases hx
  | cons c rest ih =>
    intro a x hx
    rcases List.mem_cons.mp hx with he | hm
    · subst he
      rw [fold_max_cons]
      exact le_trans (le_max_right a x) (init_le_fold_max rest (max a x))
    · exact ih _ x hm

theorem bounds_foldl_eq (pts : List (Int × Int)) :
    ∀ (a b c d : Int),
      pts.foldl (fun (bq : Int × Int × Int × Int) (nodo : Int × Int) =>
        (if nodo.1 < bq.1 then nodo.1 else bq.1,
         if nodo.2 < bq.2.1 then nodo.2 else bq.2.1,
         if nodo.1 > bq.2.2.1 then nodo.1 else bq.2.2.1,
         if nodo.2 > bq.2.2.2 then nodo.2 else bq.2.2.2)) (a, b, c, d) =
      (fold_min (pts.map Prod.fst) a, fold_min (pts.map Prod.snd) b,
       fold_max (pts.map Prod.fst) c, fold_max (pts.map Prod.snd) d) := by
  induction pts with
  | nil => intro a b c d; rfl
  | cons p rest ih =>
    intro a b c d
    rw [List.foldl_cons]
    dsimp only
    rw [if_lt_eq_min, if_lt_eq_min, if_gt_eq_max, if_gt_eq_max, ih]
    simp only [List.map_cons, fold_min_cons, fold_max_cons]

theorem bounds_foldl_known_eq (ks : List ((Int × Int) × Tile)) :
    ∀ (a b c d : Int),
      ks.foldl (fun (bq : Int × Int × Int × Int) (nodo : (Int × Int) × Tile) =>
        (if nodo.1.1 < bq.1 then nodo.1.1 else bq.1,
         if nodo.1.2 < bq.2.1 then nodo.1.2 else bq.2.1,
         if nodo.1.1 > bq.2.2.1 then nodo.1.1 else bq.2.2.1,
         if nodo.1.2 > bq.2.2.2 then nodo.1.2 else bq.2.2.2)) (a, b, c, d) =
      (fold_min (ks.map fun nodo => nodo.1.1) a, fold_min (ks.map fun nodo => nodo.1.2) b,
       fold_max (ks.map fun nodo => nodo.1.1) c,
       fold_max (ks.map fun nodo => nodo.1.2) d) := by
  induction ks with
  | nil => intro a b c d; rfl
  | cons p rest ih =>
    intro a b c d
    rw [List.foldl_cons]
    dsimp only
    rw [if_lt_eq_min, if_lt_eq_min, if_gt_eq_max, if_gt_eq_max, ih]
    simp only [List.map_cons, fold_min_cons, fold_max_cons]

theorem getD_set_self {α : Type} (l : List α) (i : Nat) (v d : α) (hi : i < l.length) :
    (l.set i v).getD i d = v := by
  rw [List.getD_eq_getElem _ _ (by simpa using hi)]
  simp

theorem set_cell_spec {α : Type} (m : List (List α)) (r c : Nat) (v d : α)
    (hr : r < m.length) (hc : c < (m.getD r []).length) :
    ∃ m', set_cell m r c v = some m' ∧ m'.length = m.length ∧
      (∀ r', (m'.getD r' []).length = (m.getD r' []).length) ∧
      (∀ r' c' (d' : α), r' ≠ r ∨ c' ≠ c →
        (m'.getD r' []).getD c' d' = (m.getD r' []).getD c' d') ∧
      (m'.getD r []).getD c d = v := by
  have hrow : m.get? r = some (m.getD r []) := by
    rw [List.getD_eq_getElem _ _ hr]
    exact List.get?_eq_get hr
  have hcell : (m.getD r []).get? c = some ((m.getD r []).getD c d) := by
    rw [List.getD_eq_getElem _ _ hc]
    exact List.get?_eq_get hc
  refine ⟨m.set r ((m.getD r []).set c v), ?_, by simp, ?_, ?_, ?_⟩
  · unfold set_cell
    rw [hrow]
    dsimp only
    rw [hcell]
  · intro r'
    by_cases hr' : r' = r
    · subst hr'
      rw [getD_set_self m r' _ [] hr]
      simp
    · rw [getD_set_ne _ _ _ _ _ hr']
  · intro r' c' d' hne
    by_cases hr' : r' = r
    · subst hr'
      rcases hne with hne | hne
      · exact absurd rfl hne
      · rw [getD_set_self m r' _ [] hr, getD_set_ne _ _ _ _ _ hne]
    · rw [getD_set_ne _ _ _ _ _ hr']
  · rw [getD_set_self m r _ [] hr, getD_set_self _ c v d (by simpa using hc)]


theorem known_at_from_any (i_min_x i_min_y : Int) (r c : Nat) :
    ∀ (ks : List ((Int × Int) × Tile)) (a : Option Tile),
      ks.foldl (fun acc nodo =>
        if 0 ≤ nodo.1.2 - i_min_y ∧ 0 ≤ nodo.1.1 - i_min_x ∧
           (nodo.1.2 - i_min_y).toNat = r ∧ (nodo.1.1 - i_min_x).toNat = c
        then some nodo.2 else acc) a =
      (match known_at ks i_min_x i_min_y r c with
       | some t => some t
       | none => a) := by
  intro ks
  induction ks with
  | nil => intro a; rfl
  | cons k rest ih =>
    intro a
    rw [List.foldl_cons]
    show rest.foldl _ _ = _
    by_cases hk : (0 ≤ k.1.2 - i_min_y ∧ 0 ≤ k.1.1 - i_min_x ∧
        (k.1.2 - i_min_y).toNat = r ∧ (k.1.1 - i_min_x).toNat = c)
    · rw [if_pos hk, ih (some k.2)]
      have : known_at (k :: rest) i_min_x i_min_y r c =
          (match known_at rest i_min_x i_min_y r c with
           | some t => some t
           | none => some k.2) := by
        unfold known_at
        rw [List.foldl_cons]
        rw [if_pos hk]
        exact ih (some k.2)
      rw [this]
      cases known_at rest i_min_x i_min_y r c <;> rfl
    · rw [if_neg hk, ih a]
      have : known_at (k :: rest) i_min_x i_min_y r c =
          known_at rest i_min_x i_min_y r c := by
        unfold known_at
        rw [List.foldl_cons]
        rw [if_neg hk]
      rw [this]

theorem known_at_cons (i_min_x i_min_y : Int) (r c : Nat)
    (k : (Int × Int) × Tile) (rest : List ((Int × Int) × Tile)) :
    known_at (k :: rest) i_min_x i_min_y r c =
      (match known_at rest i_min_x i_min_y r c with
       | some t => some t
       | none =>
         if 0 ≤ k.1.2 - i_min_y ∧ 0 ≤ k.1.1 - i_min_x ∧
            (k.1.2 - i_min_y).toNat = r ∧ (k.1.1 - i_min_x).toNat = c
         then some k.2 else none) := by
  unfold known_at
  rw [List.foldl_cons, known_at_from_any i_min_x i_min_y r c rest]
  rfl

theorem getD_replicate' {α : Type} (n : Nat) (a d : α) (r : Nat) (hr : r < n) :
    (List.replicate n a).getD r d = a := by
  rw [List.getD_eq_getElem _ _ (by simpa using hr)]
  simp

theorem normalize_bounds_eq (ks : List ((Int × Int) × Tile)) (pts : List (Int × Int)) :
    normalize_bounds ks pts =
      (fold_min (pts.map Prod.fst ++ ks.map fun nodo => nodo.1.1) 2147483647,
       fold_min (pts.map Prod.snd ++ ks.map fun nodo => nodo.1.2) 2147483647,
       fold_max (pts.map Prod.fst ++ ks.map fun nodo => nodo.1.1) 0,
       fold_max (pts.map Prod.snd ++ ks.map fun nodo => nodo.1.2) 0) := by
  unfold normalize_bounds
  rw [bounds_foldl_eq]
  cases ks with
  | nil => simp
  | cons k0 krest =>
    dsimp only
    rw [bounds_foldl_known_eq]
    rw [if_lt_eq_min, if_lt_eq_min, if_gt_eq_max, if_gt_eq_max]
    simp only [List.map_cons, fold_min_append, fold_max_append, fold_min_cons,
      fold_max_cons, min_self, max_self, fold_min_min, fold_max_max]

theorem overwrite_spec (i_min_x i_min_y : Int) (R C : Nat) :
    ∀ (ks : List ((Int × Int) × Tile)) (m0 : List (List Tile))
      (mask0 : List (List (Tile × Bool))),
      m0.length = R → mask0.length = R →
      (∀ r, r < R → (m0.getD r []).length = C) →
      (∀ r, r < R → (mask0.getD r []).length = C) →
      (∀ nodo ∈ ks, 0 ≤ nodo.1.2 - i_min_y ∧ 0 ≤ nodo.1.1 - i_min_x ∧
        (nodo.1.2 - i_min_y).toNat < R ∧ (nodo.1.1 - i_min_x).toNat < C) →
      ∃ m mask, overwrite_known i_min_x i_min_y ks (m0, mask0) = some (m, mask) ∧
        m.length = R ∧ mask.length = R ∧
        (∀ r, r < R → (m.getD r []).length = C) ∧
        (∀ r, r < R → (mask.getD r []).length = C) ∧
        (∀ r c, r < R → c < C →
          (m.getD r []).getD c default_tile =
            (match known_at ks i_min_x i_min_y r c with
             | some t => t
             | none => (m0.getD r []).getD c default_tile) ∧
          (mask.getD r []).getD c (default_tile, false) =
            (match known_at ks i_min_x i_min_y r c with
             | some t => (t, true)
             | none => (mask0.getD r []).getD c (default_tile, false))) := by
  intro ks
  induction ks with
  | nil =>
    intro m0 mask0 h1 h2 h3 h4 _
    exact ⟨m0, mask0, rfl, h1, h2, h3, h4, fun r c _ _ => ⟨rfl, rfl⟩⟩
  | cons k rest ih =>
    intro m0 mask0 h1 h2 h3 h4 hin
    have hk := hin k (List.mem_cons_self k rest)
    have hrk : (k.1.2 - i_min_y).toNat < m0.length := by rw [h1]; exact hk.2.2.1
    have hck : (k.1.1 - i_min_x).toNat < (m0.getD (k.1.2 - i_min_y).toNat []).length := by
      rw [h3 _ hk.2.2.1]
      exact hk.2.2.2
    have hrkm : (k.1.2 - i_min_y).toNat < mask0.length := by rw [h2]; exact hk.2.2.1
    have hckm : (k.1.1 - i_min_x).toNat < (mask0.getD (k.1.2 - i_min_y).toNat []).length := by
      rw [h4 _ hk.2.2.1]
      exact hk.2.2.2
    obtain ⟨m1, hm1eq, hm1len, hm1rows, hm1cells, hm1write⟩ :=
      set_cell_spec m0 (k.1.2 - i_min_y).toNat (k.1.1 - i_min_x).toNat k.2 default_tile
        hrk hck
    obtain ⟨mask1, hk1eq, hk1len, hk1rows, hk1cells, hk1write⟩ :=
      set_cell_spec mask0 (k.1.2 - i_min_y).toNat (k.1.1 - i_min_x).toNat (k.2, true)
        (default_tile, false) hrkm hckm
    obtain ⟨m, mask, heq, hlen, hlenm, hrows, hrowsm, hcells⟩ :=
      ih m1 mask1 (hm1len.trans h1) (hk1len.trans h2)
        (fun r hr => (hm1rows r).trans (h3 r hr))
        (fun r hr => (hk1rows r).trans (h4 r hr))
        (fun nodo hm => hin nodo (List.mem_cons_of_mem _ hm))
    refine ⟨m, mask, ?_, hlen, hlenm, hrows, hrowsm, ?_⟩
    · show (k :: rest).foldlM _ (m0, mask0) = some (m, mask)
      rw [List.foldlM_cons]
      have hstep : (if k.1.2 - i_min_y < 0 ∨ k.1.1 - i_min_x < 0 then none
          else
            match set_cell m0 (k.1.2 - i_min_y).toNat (k.1.1 - i_min_x).toNat k.2 with
            | none => none
            | some matrix' =>
              match set_cell mask0 (k.1.2 - i_min_y).toNat (k.1.1 - i_min_x).toNat
                  (k.2, true) with
              | none => none
              | some mask' => some (matrix', mask')) = some (m1, mask1) := by
        rw [if_neg (by omega : ¬ (k.1.2 - i_min_y < 0 ∨ k.1.1 - i_min_x < 0)), hm1eq, hk1eq]
      rw [hstep]
      exact heq
    · intro r c hr hc
      have hch := hcells r c hr hc
      rw [known_at_cons]
      cases hka : known_at rest i_min_x i_min_y r c with
      | some t =>
        rw [hka] at hch
        exact hch
      | none =>
        rw [hka] at hch
        by_cases hhit : ((k.1.2 - i_min_y).toNat = r ∧ (k.1.1 - i_min_x).toNat = c)
        · rw [if_pos ⟨hk.1, hk.2.1, hhit.1, hhit.2⟩]
          dsimp only
          obtain ⟨hhr, hhc⟩ := hhit
          subst hhr
          subst hhc
          exact ⟨hch.1.trans hm1write, hch.2.trans hk1write⟩
        · rw [if_neg (by tauto : ¬ (0 ≤ k.1.2 - i_min_y ∧ 0 ≤ k.1.1 - i_min_x ∧
            (k.1.2 - i_min_y).toNat = r ∧ (k.1.1 - i_min_x).toNat = c))]
          dsimp only
          have hne : r ≠ (k.1.2 - i_min_y).toNat ∨ c ≠ (k.1.1 - i_min_x).toNat := by
            by_cases h5 : r = (k.1.2 - i_min_y).toNat
            · right
              intro h6
              exact hhit ⟨h5.symm, h6.symm⟩
            · left
              exact h5
          rw [hch.1.trans (hm1cells r c default_tile hne),
            hch.2.trans (hk1cells r c (default_tile, false) hne)]
          exact ⟨rfl, rfl⟩

/-- claim C5 (amended): the normaliser allocates a dense matrix over the
bounding box whose per-axis minima are the minima of all known-cell
coordinates, target coordinates and the TRANSPOSED start coordinate, and
whose per-axis maxima are the maxima of those same inputs CLAMPED BELOW AT 0
(the source initialises the maxima to 0, so for all-negative inputs the box
is strictly larger than the minimal one and always reaches coordinate 0);
the matrix is pre-filled with impassable terrain (lava) and each known-cell
record then overwrites the cell at row `y - min_y`, column `x - min_x`
(later records win), marking it known in the mask — provided every such
write lands inside the allocated shape, otherwise the source panics. -/
theorem c5_normalizer_box (nodi_conosciuti : List ((Int × Int) × Tile))
    (nodi_interesse : List (Int × Int)) (starting_node : Int × Int)
    (hin : ∀ nodo ∈ nodi_conosciuti,
      (nodo.1.2 - norm_min_y nodi_conosciuti nodi_interesse starting_node).toNat <
        norm_rows nodi_conosciuti nodi_interesse starting_node ∧
      (nodo.1.1 - norm_min_x nodi_conosciuti nodi_interesse starting_node).toNat <
        norm_cols nodi_conosciuti nodi_interesse starting_node) :
    ∃ m mask,
      normalize_core nodi_conosciuti nodi_interesse starting_node =
        some (m, mask, norm_min_x nodi_conosciuti nodi_interesse starting_node,
          norm_min_y nodi_conosciuti nodi_interesse starting_node) ∧
      m.length = norm_rows nodi_conosciuti nodi_interesse starting_node ∧
      mask.length = norm_rows nodi_conosciuti nodi_interesse starting_node ∧
      (∀ r, r < norm_rows nodi_conosciuti nodi_interesse starting_node →
        (m.getD r []).length = norm_cols nodi_conosciuti nodi_interesse starting_node ∧
        (mask.getD r []).length = norm_cols nodi_conosciuti nodi_interesse starting_node) ∧
      (∀ r c, r < norm_rows nodi_conosciuti nodi_interesse starting_node →
        c < norm_cols nodi_conosciuti nodi_interesse starting_node →
        (m.getD r []).getD c default_tile =
          (match known_at nodi_conosciuti
              (norm_min_x nodi_conosciuti nodi_interesse starting_node)
              (norm_min_y nodi_conosciuti nodi_interesse starting_node) r c with
           | some t => t
           | none => lava_tile) ∧
        (mask.getD r []).getD c (default_tile, false) =
          (match known_at nodi_conosciuti
              (norm_min_x nodi_conosciuti nodi_interesse starting_node)
              (norm_min_y nodi_conosciuti nodi_interesse starting_node) r c with
           | some t => (t, true)
           | none => (lava_tile, false))) := by
  have hxs : (nodi_interesse ++ [(starting_node.2, starting_node.1)]).map Prod.fst ++
      nodi_conosciuti.map (fun nodo => nodo.1.1) =
      norm_xs nodi_conosciuti nodi_interesse starting_node := by
    unfold norm_xs
    simp
  have hys : (nodi_interesse ++ [(starting_node.2, starting_node.1)]).map Prod.snd ++
      nodi_conosciuti.map (fun nodo => nodo.1.2) =
      norm_ys nodi_conosciuti nodi_interesse starting_node := by
    unfold norm_ys
    simp
  have hnonneg : ∀ nodo ∈ nodi_conosciuti,
      0 ≤ nodo.1.2 - norm_min_y nodi_conosciuti nodi_interesse starting_node ∧
      0 ≤ nodo.1.1 - norm_min_x nodi_conosciuti nodi_interesse starting_node := by
    intro nodo hm
    constructor
    · have : norm_min_y nodi_conosciuti nodi_interesse starting_node ≤ nodo.1.2 := by
        unfold norm_min_y
        refine fold_min_le_mem _ _ _ ?_
        unfold norm_ys
        simp only [List.mem_append, List.mem_map]
        right
        exact ⟨nodo, hm, rfl⟩
      omega
    · have : norm_min_x nodi_conosciuti nodi_interesse starting_node ≤ nodo.1.1 := by
        unfold norm_min_x
        refine fold_min_le_mem _ _ _ ?_
        unfold norm_xs
        simp only [List.mem_append, List.mem_map]
        right
        exact ⟨nodo, hm, rfl⟩
      omega
  obtain ⟨m, mask, heq, hlen, hlenm, hrows, hrowsm, hcells⟩ :=
    overwrite_spec (norm_min_x nodi_conosciuti nodi_interesse starting_node)
      (norm_min_y nodi_conosciuti nodi_interesse starting_node)
      (norm_rows nodi_conosciuti nodi_interesse starting_node)
      (norm_cols nodi_conosciuti nodi_interesse starting_node)
      nodi_conosciuti
      (List.replicate (norm_rows nodi_conosciuti nodi_interesse starting_node)
        (List.replicate (norm_cols nodi_conosciuti nodi_interesse starting_node) lava_tile))
      (List.replicate (norm_rows nodi_conosciuti nodi_interesse starting_node)
        (List.replicate (norm_cols nodi_conosciuti nodi_interesse starting_node)
          (lava_tile, false)))
      (by simp) (by simp)
      (fun r hr => by rw [getD_replicate' _ _ _ _ hr]; simp)
      (fun r hr => by rw [getD_replicate' _ _ _ _ hr]; simp)
      (fun nodo hm => ⟨(hnonneg nodo hm).1, (hnonneg nodo hm).2,
        (hin nodo hm).1, (hin nodo hm).2⟩)
  refine ⟨m, mask, ?_, hlen, hlenm, fun r hr => ⟨hrows r hr, hrowsm r hr⟩, ?_⟩
  · unfold normalize_core
    dsimp only
    rw [normalize_bounds_eq]
    dsimp only
    rw [hxs, hys]
    have e1 : fold_min (norm_xs nodi_conosciuti nodi_interesse starting_node) 2147483647 =
        norm_min_x nodi_conosciuti nodi_interesse starting_node := rfl
    have e2 : fold_min (norm_ys nodi_conosciuti nodi_interesse starting_node) 2147483647 =
        norm_min_y nodi_conosciuti nodi_interesse starting_node := rfl
    have e3 : fold_max (norm_xs nodi_conosciuti nodi_interesse starting_node) 0 =
        norm_max_x nodi_conosciuti nodi_interesse starting_node := rfl
    have e4 : fold_max (norm_ys nodi_conosciuti nodi_interesse starting_node) 0 =
        norm_max_y nodi_conosciuti nodi_interesse starting_node := rfl
    rw [e1, e2, e3, e4]
    have e5 : (norm_max_x nodi_conosciuti nodi_interesse starting_node -
        norm_min_x nodi_conosciuti nodi_interesse starting_node + 1).toNat =
        norm_rows nodi_conosciuti nodi_interesse starting_node := rfl
    have e6 : (norm_max_y nodi_conosciuti nodi_interesse starting_node -
        norm_min_y nodi_conosciuti nodi_interesse starting_node + 1).toNat =
        norm_cols nodi_conosciuti nodi_interesse starting_node := rfl
    rw [e5, e6, heq]
  · intro r c hr hc
    have hch := hcells r c hr hc
    rw [getD_replicate' _ _ _ _ hr, getD_replicate' _ _ _ _ hc,
      getD_replicate' _ _ _ _ hr, getD_replicate' _ _ _ _ hc] at hch
    exact hch

/-- Witness for C5 (amended) at a concrete input, with a known record, a
target and a start whose writes land in bounds. -/
theorem c5_witness :
    ∃ m mask,
      normalize_core [((0, 0), ⟨TileType.Grass, 0⟩)] [(1, 1)] (0, 0) =
        some (m, mask, norm_min_x [((0, 0), ⟨TileType.Grass, 0⟩)] [(1, 1)] (0, 0),
          norm_min_y [((0, 0), ⟨TileType.Grass, 0⟩)] [(1, 1)] (0, 0)) ∧
      m.length = norm_rows [((0, 0), ⟨TileType.Grass, 0⟩)] [(1, 1)] (0, 0) ∧
      mask.length = norm_rows [((0, 0), ⟨TileType.Grass, 0⟩)] [(1, 1)] (0, 0) ∧
      (∀ r, r < norm_rows [((0, 0), ⟨TileType.Grass, 0⟩)] [(1, 1)] (0, 0) →
        (m.getD r []).length = norm_cols [((0, 0), ⟨TileType.Grass, 0⟩)] [(1, 1)] (0, 0) ∧
        (mask.getD r []).length = norm_cols [((0, 0), ⟨TileType.Grass, 0⟩)] [(1, 1)] (0, 0)) ∧
      (∀ r c, r < norm_rows [((0, 0), ⟨TileType.Grass, 0⟩)] [(1, 1)] (0, 0) →
        c < norm_cols [((0, 0), ⟨TileType.Grass, 0⟩)] [(1, 1)] (0, 0) →
        (m.getD r []).getD c default_tile =
          (match known_at [((0, 0), ⟨TileType.Grass, 0⟩)]
              (norm_min_x [((0, 0), ⟨TileType.Grass, 0⟩)] [(1, 1)] (0, 0))
              (norm_min_y [((0, 0), ⟨TileType.Grass, 0⟩)] [(1, 1)] (0, 0)) r c with
           | some t => t
           | none => lava_tile) ∧
        (mask.getD r []).getD c (default_tile, false) =
          (match known_at [((0, 0), ⟨TileType.Grass, 0⟩)]
              (norm_min_x [((0, 0), ⟨TileType.Grass, 0⟩)] [(1, 1)] (0, 0))
              (norm_min_y [((0, 0), ⟨TileType.Grass, 0⟩)] [(1, 1)] (0, 0)) r c with
           | some t => (t, true)
           | none => (lava_tile, false))) :=
  c5_normalizer_box [((0, 0), ⟨TileType.Grass, 0⟩)] [(1, 1)] (0, 0) (by decide)

end BestPath

namespace BestPath

/-! Heap-pop and predecessor-walk lemmas for the Dijkstra development. -/

theorem pop_min_none_iff (l : List Node) : pop_min l = none ↔ l = [] := by
  cases l with
  | nil => simp [pop_min]
  | cons n rest =>
    constructor
    · intro h
      unfold pop_min at h
      cases hp : pop_min rest with
      | none => rw [hp] at h; cases h
      | some p => rw [hp] at h; dsimp only at h; split at h <;> cases h
    · intro h; cases h

theorem pop_min_spec (l : List Node) :
    ∀ m r, pop_min l = some (m, r) →
      (m :: r).Perm l ∧ ∀ x ∈ l, m.distance ≤ x.distance := by
  induction l with
  | nil => intro m r h; cases h
  | cons n rest ih =>
    intro m r h
    unfold pop_min at h
    cases hp : pop_min rest with
    | none =>
      rw [hp] at h
      cases h
      have : rest = [] := (pop_min_none_iff rest).mp hp
      subst this
      exact ⟨List.Perm.refl _, by intro x hx; simp at hx; subst hx; exact le_refl _⟩
    | some p =>
      rw [hp] at h
      obtain ⟨m', rest'⟩ := p
      obtain ⟨hperm, hmin⟩ := ih m' rest' hp
      dsimp only at h
      split at h
      · cases h
        rename_i hle
        refine ⟨List.Perm.refl _, ?_⟩
        intro x hx
        rcases List.mem_cons.mp hx with he | hm
        · subst he; exact le_refl _
        · exact le_trans hle (hmin x hm)
      · cases h
        rename_i hgt
        constructor
        · refine List.Perm.trans ?_ (hperm.cons n)
          exact List.Perm.swap n m rest'
        · intro x hx
          rcases List.mem_cons.mp hx with he | hm
          · subst he; omega
          · exact hmin x hm

theorem pop_min_length (l : List Node) (m : Node) (r : List Node)
    (h : pop_min l = some (m, r)) : l.length = r.length + 1 := by
  have := (pop_min_spec l m r h).1.length_eq
  simpa using this.symm

theorem pop_min_mem (l : List Node) (m : Node) (r : List Node)
    (h : pop_min l = some (m, r)) : m ∈ l :=
  (pop_min_spec l m r h).1.mem_iff.mp (List.mem_cons_self _ _)

theorem pop_min_sub (l : List Node) (m : Node) (r : List Node)
    (h : pop_min l = some (m, r)) : ∀ x ∈ r, x ∈ l := by
  intro x hx
  exact (pop_min_spec l m r h).1.mem_iff.mp (List.mem_cons_of_mem _ hx)

theorem pop_min_mem_split (l : List Node) (m : Node) (r : List Node)
    (h : pop_min l = some (m, r)) : ∀ x ∈ l, x = m ∨ x ∈ r := by
  intro x hx
  have := (pop_min_spec l m r h).1.mem_iff.mpr hx
  rcases List.mem_cons.mp this with he | hm
  · exact Or.inl he
  · exact Or.inr hm

theorem walk_back_cons_eq (predecessor : List (Option Nat)) (f : Nat) (v u : Nat)
    (h : predecessor.getD v none = some u) :
    walk_back predecessor (f + 1) v =
      match walk_back predecessor f u with
      | some l => some (v :: l)
      | none => none := by
  conv_lhs => unfold walk_back
  rw [h]

theorem walk_back_root_eq (predecessor : List (Option Nat)) (f : Nat) (v : Nat)
    (h : predecessor.getD v none = none) :
    walk_back predecessor (f + 1) v = some [v] := by
  conv_lhs => unfold walk_back
  rw [h]

theorem walk_back_length_le (predecessor : List (Option Nat)) :
    ∀ (f v : Nat) (l : List Nat), walk_back predecessor f v = some l →
      l.length ≤ f ∧ l ≠ [] := by
  intro f
  induction f with
  | zero => intro v l h; cases h
  | succ n ih =>
    intro v l h
    unfold walk_back at h
    split at h
    · split at h
      · cases h
        rename_i hw
        have := ih _ _ hw
        constructor
        · simpa using Nat.succ_le_succ this.1
        · simp
      · cases h
    · cases h
      exact ⟨by simp, by simp⟩

theorem walk_back_mono (predecessor : List (Option Nat)) :
    ∀ (f v : Nat) (l : List Nat), walk_back predecessor f v = some l →
      ∀ f', l.length ≤ f' → walk_back predecessor f' v = some l := by
  intro f
  induction f with
  | zero => intro v l h; cases h
  | succ n ih =>
    intro v l h f' hf'
    unfold walk_back at h
    split at h
    · rename_i u hu
      cases hw : walk_back predecessor n u with
      | none => rw [hw] at h; cases h
      | some l' =>
        rw [hw] at h
        cases h
        have hlen := (walk_back_length_le predecessor n u l' hw).1
        obtain ⟨f'', rfl⟩ : ∃ f'', f' = f'' + 1 := by
          refine ⟨f' - 1, ?_⟩
          simp at hf'
          omega
        rw [walk_back_cons_eq predecessor f'' _ _ hu,
          ih u l' hw f'' (by simp at hf'; omega)]
    · cases h
      obtain ⟨f'', rfl⟩ : ∃ f'', f' = f'' + 1 := by
        refine ⟨f' - 1, ?_⟩
        simp at hf'
        omega
      rename_i hu
      exact walk_back_root_eq predecessor f'' v hu

theorem walk_back_congr (pred1 pred2 : List (Option Nat)) :
    ∀ (f v : Nat) (l : List Nat), walk_back pred1 f v = some l →
      (∀ e ∈ l, pred2.getD e none = pred1.getD e none) →
      walk_back pred2 f v = some l := by
  intro f
  induction f with
  | zero => intro v l h; cases h
  | succ n ih =>
    intro v l h hagree
    unfold walk_back at h
    split at h
    · rename_i u hu
      cases hw : walk_back pred1 n u with
      | none => rw [hw] at h; cases h
      | some l' =>
        rw [hw] at h
        cases h
        have h2 : pred2.getD v none = some u := by
          rw [hagree v (List.mem_cons_self _ _), hu]
        rw [walk_back_cons_eq pred2 n v u h2,
          ih u l' hw (fun e he => hagree e (List.mem_cons_of_mem _ he))]
    · cases h
      rename_i hu
      have h2 : pred2.getD v none = none := by
        rw [hagree v (List.mem_cons_self _ _), hu]
      exact walk_back_root_eq pred2 n v h2

theorem walk_back_head_eq (predecessor : List (Option Nat)) (f v : Nat) (l : List Nat)
    (h : walk_back predecessor f v = some l) : l.head? = some v :=
  walk_back_head predecessor f v l h

theorem walk_back_last_root (predecessor : List (Option Nat)) :
    ∀ (f v : Nat) (l : List Nat), walk_back predecessor f v = some l →
      ∃ r, l.getLast? = some r ∧ predecessor.getD r none = none := by
  intro f
  induction f with
  | zero => intro v l h; cases h
  | succ n ih =>
    intro v l h
    unfold walk_back at h
    split at h
    · rename_i u hu
      cases hw : walk_back predecessor n u with
      | none => rw [hw] at h; cases h
      | some l' =>
        rw [hw] at h
        cases h
        obtain ⟨r, hr1, hr2⟩ := ih u l' hw
        refine ⟨r, ?_, hr2⟩
        have hne : l' ≠ [] := (walk_back_length_le predecessor n u l' hw).2
        cases l' with
        | nil => exact absurd rfl hne
        | cons a as =>
          rw [List.getLast?_cons_cons]
          exact hr1
    · cases h
      rename_i hu
      exact ⟨v, rfl, hu⟩

end BestPath

namespace BestPath

/-! The reachability traversal (`fn find_connected_targets`), claims C7/C8. -/

theorem reach_lt (g : List (List Node)) (start : Nat)
    (hwf : ∀ u, ∀ nd ∈ g.getD u [], nd.index < g.length) (hstart : start < g.length) :
    ∀ v, reach g start v → v < g.length := by
  intro v hv
  induction hv with
  | refl => exact hstart
  | step _ hmem _ => exact hwf _ _ hmem

theorem unvisited_deg_set (g : List (List Node)) (visited : List Bool) (u : Nat)
    (hu : u < g.length) (hlen : visited.length = g.length)
    (hv : visited.getD u false = false) :
    unvisited_deg g (visited.set u true) + (g.getD u []).length =
      unvisited_deg g visited := by
  unfold unvisited_deg
  have hmem : u ∈ Finset.range g.length := Finset.mem_range.mpr hu
  rw [← Finset.sum_erase_add _ _ hmem]
  conv_rhs => rw [← Finset.sum_erase_add _ _ hmem]
  have h1 : ∀ x ∈ (Finset.range g.length).erase u,
      (if (visited.set u true).getD x false = true then 0 else (g.getD x []).length) =
      (if visited.getD x false = true then 0 else (g.getD x []).length) := by
    intro x hx
    rw [getD_set_ne _ _ _ _ _ (Finset.ne_of_mem_erase hx)]
  rw [Finset.sum_congr rfl h1]
  rw [getD_set_self _ _ _ _ (by omega : u < visited.length), hv]
  simp

theorem visited_weight_set (g : List (List Node)) (visited : List Bool) (u : Nat)
    (hu : u < g.length) (hlen : visited.length = g.length)
    (hv : visited.getD u false = false) :
    visited_weight g (visited.set u true) =
      visited_weight g visited + vertex_weight g u := by
  unfold visited_weight
  have hmem : u ∈ Finset.range g.length := Finset.mem_range.mpr hu
  rw [← Finset.sum_erase_add _ _ hmem]
  conv_rhs => rw [← Finset.sum_erase_add _ _ hmem]
  have h1 : ∀ x ∈ (Finset.range g.length).erase u,
      (if (visited.set u true).getD x false = true then vertex_weight g x else 0) =
      (if visited.getD x false = true then vertex_weight g x else 0) := by
    intro x hx
    rw [getD_set_ne _ _ _ _ _ (Finset.ne_of_mem_erase hx)]
  rw [Finset.sum_congr rfl h1]
  rw [getD_set_self _ _ _ _ (by omega : u < visited.length), hv]
  simp

theorem visited_weight_le_total (g : List (List Node)) (visited : List Bool) :
    visited_weight g visited ≤ weight_total g := by
  unfold visited_weight weight_total
  refine Finset.sum_le_sum ?_
  intro u _
  split
  · exact le_refl _
  · exact Nat.zero_le _

theorem fct_fold_spec (visited' : List Bool) (k : Nat) :
    ∀ (edges h0 : List Node),
      (∀ x ∈ h0, x ∈ edges.foldl (fun (h : List Node) neighbor =>
        if !(visited'.getD neighbor.index false) then
          h ++ [Node.mk neighbor.index (k + neighbor.index)]
        else h) h0) ∧
      (∀ x ∈ edges.foldl (fun (h : List Node) neighbor =>
        if !(visited'.getD neighbor.index false) then
          h ++ [Node.mk neighbor.index (k + neighbor.index)]
        else h) h0, x ∈ h0 ∨ ∃ nb ∈ edges, x = Node.mk nb.index (k + nb.index)) ∧
      (∀ nb ∈ edges, visited'.getD nb.index false = false →
        nb.index ∈ (edges.foldl (fun (h : List Node) neighbor =>
          if !(visited'.getD neighbor.index false) then
            h ++ [Node.mk neighbor.index (k + neighbor.index)]
          else h) h0).map Node.index) ∧
      (edges.foldl (fun (h : List Node) neighbor =>
        if !(visited'.getD neighbor.index false) then
          h ++ [Node.mk neighbor.index (k + neighbor.index)]
        else h) h0).length ≤ h0.length + edges.length := by
  intro edges
  induction edges with
  | nil =>
    intro h0
    exact ⟨fun x hx => hx, fun x hx => Or.inl hx, fun nb hnb => absurd hnb (by simp),
      by simp⟩
  | cons e rest ih =>
    intro h0
    simp only [List.foldl_cons]
    by_cases he : visited'.getD e.index false = false
    · rw [if_pos (by rw [he]; rfl)]
      obtain ⟨i1, i2, i3, i4⟩ := ih (h0 ++ [Node.mk e.index (k + e.index)])
      refine ⟨?_, ?_, ?_, ?_⟩
      · intro x hx
        exact i1 x (List.mem_append_left _ hx)
      · intro x hx
        rcases i2 x hx with hin | ⟨nb, hnb, hx2⟩
        · rcases List.mem_append.mp hin with h1 | h2
          · exact Or.inl h1
          · simp only [List.mem_singleton] at h2
            exact Or.inr ⟨e, List.mem_cons_self _ _, h2⟩
        · exact Or.inr ⟨nb, List.mem_cons_of_mem _ hnb, hx2⟩
      · intro nb hnb hnv
        rcases List.mem_cons.mp hnb with h1 | h2
        · subst h1
          have : Node.mk nb.index (k + nb.index) ∈ _ :=
            i1 (Node.mk nb.index (k + nb.index))
              (List.mem_append_right _ (List.mem_singleton.mpr rfl))
          exact List.mem_map.mpr ⟨_, this, rfl⟩
        · exact i3 nb h2 hnv
      · calc _ ≤ (h0 ++ [Node.mk e.index (k + e.index)]).length + rest.length := i4
          _ = h0.length + (e :: rest).length := by simp; omega
    · rw [if_neg (by simp at he; simp [he])]
      obtain ⟨i1, i2, i3, i4⟩ := ih h0
      refine ⟨i1, ?_, ?_, ?_⟩
      · intro x hx
        rcases i2 x hx with h1 | ⟨nb, hnb, hx2⟩
        · exact Or.inl h1
        · exact Or.inr ⟨nb, List.mem_cons_of_mem _ hnb, hx2⟩
      · intro nb hnb hnv
        rcases List.mem_cons.mp hnb with h1 | h2
        · subst h1
          exact absurd hnv he
        · exact i3 nb h2 hnv
      · calc _ ≤ h0.length + rest.length := i4
          _ ≤ h0.length + (e :: rest).length := by simp

end BestPath

namespace BestPath

theorem fct_loop_spec (g : List (List Node)) (start : Nat) (targets : List Nat)
    (hwf : ∀ u, ∀ nd ∈ g.getD u [], nd.index < g.length) :
    ∀ (fuel : Nat) (s : CState), fct_inv g start targets s →
      s.heap.length + unvisited_deg g s.visited ≤ fuel →
      fct_inv g start targets (fct_loop g targets fuel s) ∧
      (fct_loop g targets fuel s).heap = [] := by
  intro fuel
  induction fuel with
  | zero =>
    intro s hinv hphi
    have : s.heap = [] := by
      cases hh : s.heap with
      | nil => rfl
      | cons a b => rw [hh] at hphi; simp at hphi
    exact ⟨hinv, this⟩
  | succ n ih =>
    intro s hinv hphi
    show fct_inv g start targets (fct_loop g targets (n + 1) s) ∧ _
    unfold fct_loop
    cases hpop : pop_min s.heap with
    | none =>
      have : s.heap = [] := (pop_min_none_iff s.heap).mp hpop
      exact ⟨hinv, this⟩
    | some p =>
      obtain ⟨nd, heap'⟩ := p
      obtain ⟨hlen, hvr, hhr, hcl, hst, hconn, hnodup⟩ := hinv
      have hheaplen : s.heap.length = heap'.length + 1 := pop_min_length _ _ _ hpop
      dsimp only
      by_cases hv : s.visited.getD nd.index false = true
      · rw [if_pos hv]
        refine ih { s with heap := heap' } ⟨hlen, hvr, ?_, ?_, ?_, hconn, hnodup⟩ ?_
        · intro x hx
          exact hhr x (pop_min_sub _ _ _ hpop x hx)
        · intro u hu nd2 hnd2
          rcases hcl u hu nd2 hnd2 with h1 | h2
          · exact Or.inl h1
          · rcases List.mem_map.mp h2 with ⟨x, hx, hxi⟩
            rcases pop_min_mem_split _ _ _ hpop x hx with he | hm
            · left
              rw [← hxi, he]
              exact hv
            · exact Or.inr (List.mem_map.mpr ⟨x, hm, hxi⟩)
        · rcases hst with h1 | h2
          · exact Or.inl h1
          · rcases List.mem_map.mp h2 with ⟨x, hx, hxi⟩
            rcases pop_min_mem_split _ _ _ hpop x hx with he | hm
            · left
              rw [← hxi, he]
              exact hv
            · exact Or.inr (List.mem_map.mpr ⟨x, hm, hxi⟩)
        · dsimp only
          omega
      · rw [if_neg hv]
        have hndlt : nd.index < g.length := (hhr nd (pop_min_mem _ _ _ hpop)).1
        have hndreach : reach g start nd.index := (hhr nd (pop_min_mem _ _ _ hpop)).2
        have hvfalse : s.visited.getD nd.index false = false := by
          cases hb : s.visited.getD nd.index false
          · rfl
          · exact absurd hb hv
        obtain ⟨f1, f2, f3, f4⟩ := fct_fold_spec (s.visited.set nd.index true)
          nd.distance (g.getD nd.index []) heap'
        have hvget : ∀ v, (s.visited.set nd.index true).getD v false = true ↔
            (v = nd.index ∨ s.visited.getD v false = true) := by
          intro v
          by_cases hveq : v = nd.index
          · subst hveq
            rw [getD_set_self s.visited nd.index true false (by omega)]
            simp
          · rw [getD_set_ne _ _ _ _ _ hveq]
            simp [hveq]
        refine ih _ ⟨by simpa using hlen, ?_, ?_, ?_, ?_, ?_, ?_⟩ ?_
        · -- visited are reachable
          intro v hvv
          rcases (hvget v).mp hvv with he | hm
          · subst he; exact hndreach
          · exact hvr v hm
        · -- heap entries in range and reachable
          intro x hx
          rcases f2 x hx with h1 | ⟨nb, hnb, hx2⟩
          · exact hhr x (pop_min_sub _ _ _ hpop x h1)
          · subst hx2
            exact ⟨hwf nd.index nb hnb, reach.step hndreach hnb⟩
        · -- closure
          intro u hu nd2 hnd2
          rcases (hvget u).mp hu with he | hm
          · subst he
            by_cases hnv : (s.visited.set nd.index true).getD nd2.index false = true
            · exact Or.inl hnv
            · right
              have hfa : (s.visited.set nd.index true).getD nd2.index false = false := by
                cases hb : (s.visited.set nd.index true).getD nd2.index false
                · rfl
                · exact absurd hb hnv
              exact f3 nd2 hnd2 hfa
          · rcases hcl u hm nd2 hnd2 with h1 | h2
            · left
              rcases (hvget nd2.index).mpr (Or.inr h1) with h3
              exact h3
            · rcases List.mem_map.mp h2 with ⟨x, hx, hxi⟩
              rcases pop_min_mem_split _ _ _ hpop x hx with he2 | hm2
              · subst he2
                left
                rw [← hxi]
                exact (hvget x.index).mpr (Or.inl rfl)
              · right
                rcases List.mem_map.mpr ⟨x, f1 x hm2, hxi⟩ with h4
                exact h4
        · -- start accounted
          rcases hst with h1 | h2
          · exact Or.inl ((hvget start).mpr (Or.inr h1))
          · rcases List.mem_map.mp h2 with ⟨x, hx, hxi⟩
            rcases pop_min_mem_split _ _ _ hpop x hx with he2 | hm2
            · subst he2
              left
              rw [← hxi]
              exact (hvget x.index).mpr (Or.inl rfl)
            · exact Or.inr (List.mem_map.mpr ⟨x, f1 x hm2, hxi⟩)
        · -- connected iff
          intro v
          dsimp only
          by_cases htg : targets.contains nd.index
          · rw [if_pos htg]
            rw [List.mem_append]
            constructor
            · intro h
              rcases h with h1 | h2
              · obtain ⟨ht, hvv⟩ := (hconn v).mp h1
                exact ⟨ht, (hvget v).mpr (Or.inr hvv)⟩
              · simp only [List.mem_singleton] at h2
                subst h2
                exact ⟨List.elem_iff.mp htg, (hvget nd.index).mpr (Or.inl rfl)⟩
            · intro ⟨ht, hvv⟩
              rcases (hvget v).mp hvv with he | hm
              · right; simp [he]
              · left; exact (hconn v).mpr ⟨ht, hm⟩
          · rw [if_neg htg]
            constructor
            · intro h
              obtain ⟨ht, hvv⟩ := (hconn v).mp h
              exact ⟨ht, (hvget v).mpr (Or.inr hvv)⟩
            · intro ⟨ht, hvv⟩
              rcases (hvget v).mp hvv with he | hm
              · subst he
                exact absurd (List.elem_iff.mpr ht) htg
              · exact (hconn v).mpr ⟨ht, hm⟩
        · -- nodup
          dsimp only
          by_cases htg : targets.contains nd.index
          · rw [if_pos htg]
            refine List.Nodup.append hnodup (by simp) ?_
            intro a ha hb
            simp only [List.mem_singleton] at hb
            subst hb
            have hvc := ((hconn nd.index).mp ha).2
            rw [hvc] at hvfalse
            cases hvfalse
          · rw [if_neg htg]
            exact hnodup
        · -- fuel
          dsimp only
          have hud := unvisited_deg_set g s.visited nd.index hndlt hlen hvfalse
          have hf4 := f4
          omega

end BestPath

namespace BestPath

theorem sum_range_getD {α : Type} (f : α → Nat) (d : α) :
    ∀ (l : List α), ∑ u ∈ Finset.range l.length, f (l.getD u d) = (l.map f).sum := by
  intro l
  induction l with
  | nil => simp
  | cons a rest ih =>
    rw [List.length_cons, Finset.sum_range_succ']
    simp only [List.getD_cons_succ, List.getD_cons_zero]
    rw [ih, List.map_cons, List.sum_cons]
    omega

theorem unvisited_deg_init (g : List (List Node)) :
    unvisited_deg g (List.replicate g.length false) = total_deg g := by
  unfold unvisited_deg total_deg
  rw [← sum_range_getD List.length ([] : List Node) g]
  refine Finset.sum_congr rfl ?_
  intro u hu
  rw [getD_replicate' _ _ _ _ (Finset.mem_range.mp hu)]
  simp

theorem fct_spec (g : List (List Node)) (start : Nat) (targets : List Nat)
    (hwf : ∀ u, ∀ nd ∈ g.getD u [], nd.index < g.length) (hstart : start < g.length) :
    (∀ v, v ∈ find_connected_targets g start targets ↔ v ∈ targets ∧ reach g start v) ∧
    (find_connected_targets g start targets).Nodup := by
  have hrepl : ∀ v, (List.replicate g.length false).getD v false = false := by
    intro v
    by_cases hvn : v < g.length
    · exact getD_replicate' _ _ _ _ hvn
    · rw [List.getD_eq_default]
      simp
      omega
  have hinv0 : fct_inv g start targets
      ⟨List.replicate g.length false, [Node.mk start 0], []⟩ := by
    refine ⟨by simp, ?_, ?_, ?_, ?_, ?_, by simp⟩
    · intro v hvv
      rw [hrepl v] at hvv
      cases hvv
    · intro nd hnd
      simp only [List.mem_singleton] at hnd
      subst hnd
      exact ⟨hstart, reach.refl⟩
    · intro u hu
      rw [hrepl u] at hu
      cases hu
    · right
      simp
    · intro v
      simp [hrepl v]
  obtain ⟨hfin, hheap⟩ := fct_loop_spec g start targets hwf (1 + total_deg g) _ hinv0
    (by simp [unvisited_deg_init])
  obtain ⟨_, hvr, _, hcl, hst, hconn, hnodup⟩ := hfin
  have hres : find_connected_targets g start targets =
      (fct_loop g targets (1 + total_deg g)
        ⟨List.replicate g.length false, [Node.mk start 0], []⟩).connected := rfl
  rw [hres]
  refine ⟨?_, hnodup⟩
  intro v
  rw [hconn v]
  constructor
  · intro h
    exact ⟨h.1, hvr v h.2⟩
  · intro h
    obtain ⟨ht, hr⟩ := h
    refine ⟨ht, ?_⟩
    have hstartv : (fct_loop g targets (1 + total_deg g)
        ⟨List.replicate g.length false, [Node.mk start 0], []⟩).visited.getD start false
        = true := by
      rcases hst with h1 | h1
      · exact h1
      · rw [hheap] at h1
        cases h1
    clear hconn hnodup ht
    induction hr with
    | refl => exact hstartv
    | step hr1 hmem ihh =>
      rcases hcl _ ihh _ hmem with h1 | h2
      · exact h1
      · rw [hheap] at h2
        cases h2

end BestPath

namespace BestPath

/-- **C8.** Corrected: duplicate target coordinates do survive vertex
resolution as separate entries of the target-index list, but the
reachability filter that feeds the router deduplicates them — its output is
duplicate-free and contains a vertex exactly when it was requested and is
reachable — so the router emits one segment per distinct reachable target
vertex, not one per requested entry. -/
theorem c8_duplicate_targets_collapse (g : List (List Node)) (start : Nat)
    (targets : List Nat)
    (hwf : ∀ u, ∀ nd ∈ g.getD u [], nd.index < g.length)
    (hstart : start < g.length) :
    (find_connected_targets g start targets).Nodup ∧
    ∀ v, v ∈ find_connected_targets g start targets ↔
      v ∈ targets ∧ reach g start v := by
  obtain ⟨h1, h2⟩ := fct_spec g start targets hwf hstart
  exact ⟨h2, h1⟩

theorem c8_witness :
    (find_connected_targets [[Node.mk 1 1], [Node.mk 0 1]] 0 [1, 1]).Nodup ∧
    (1 ∈ find_connected_targets [[Node.mk 1 1], [Node.mk 0 1]] 0 [1, 1] ↔
      1 ∈ [1, 1] ∧ reach [[Node.mk 1 1], [Node.mk 0 1]] 0 1) := by
  have hwf : ∀ u, ∀ nd ∈ ([[Node.mk 1 1], [Node.mk 0 1]] : List (List Node)).getD u [],
      nd.index < ([[Node.mk 1 1], [Node.mk 0 1]] : List (List Node)).length := by
    intro u nd hnd
    match u with
    | 0 =>
      simp only [List.getD_cons_zero, List.mem_singleton] at hnd
      subst hnd
      decide
    | 1 =>
      simp only [List.getD_cons_succ, List.getD_cons_zero, List.mem_singleton] at hnd
      subst hnd
      decide
    | u + 2 =>
      rw [List.getD_eq_default] at hnd
      · cases hnd
      · simp
  have h := c8_duplicate_targets_collapse [[Node.mk 1 1], [Node.mk 0 1]] 0 [1, 1]
    hwf (by decide)
  exact ⟨h.1, h.2 1⟩

end BestPath

namespace BestPath

/-! The relaxation fold of the Dijkstra loop (claims C6/C7). -/

theorem relax_eq_pos (nd : Node) (t : DState) (nb : Node)
    (hc : nd.distance + nb.distance < (t.dist.getD nb.index none).getD INF_SENTINEL) :
    relax nd t nb = DState.mk
      (t.dist.set nb.index (some (nd.distance + nb.distance)))
      (t.pred.set nb.index (some nd.index)) t.visited
      (t.heap ++ [Node.mk nb.index (nd.distance + nb.distance)]) := by
  unfold relax
  rw [if_pos hc]

theorem relax_eq_neg (nd : Node) (t : DState) (nb : Node)
    (hc : ¬ nd.distance + nb.distance < (t.dist.getD nb.index none).getD INF_SENTINEL) :
    relax nd t nb = t := by
  unfold relax
  rw [if_neg hc]

theorem relax_fold_spec (g : List (List Node)) (start : Nat) (nd : Node) (n : Nat) :
    ∀ (l : List Node) (s1 : DState),
      (∀ nb ∈ l, nb.index < n ∧ nb.distance ≤ vertex_weight g nd.index) →
      s1.dist.length = n → s1.pred.length = n →
      (∀ v, s1.visited.getD v false = true →
        ∃ d, s1.dist.getD v none = some d ∧ d ≤ nd.distance) →
      s1.dist.getD start none = some 0 →
      nd.distance + vertex_weight g nd.index < INF_SENTINEL →
      (l.foldl (relax nd) s1).visited = s1.visited ∧
      (l.foldl (relax nd) s1).dist.length = n ∧
      (l.foldl (relax nd) s1).pred.length = n ∧
      (∀ v, ((l.foldl (relax nd) s1).dist.getD v none = s1.dist.getD v none ∧
             (l.foldl (relax nd) s1).pred.getD v none = s1.pred.getD v none) ∨
        (v < n ∧ v ≠ start ∧ s1.visited.getD v false = false ∧
         (l.foldl (relax nd) s1).pred.getD v none = some nd.index ∧
         v ∈ (l.foldl (relax nd) s1).heap.map Node.index ∧
         ∃ d, (l.foldl (relax nd) s1).dist.getD v none = some d ∧
           nd.distance ≤ d ∧ d ≤ nd.distance + vertex_weight g nd.index)) ∧
      (∀ v d0, s1.dist.getD v none = some d0 →
        ∃ d1, (l.foldl (relax nd) s1).dist.getD v none = some d1 ∧ d1 ≤ d0) ∧
      (∃ ext, (l.foldl (relax nd) s1).heap = s1.heap ++ ext ∧
        ext.length ≤ l.length ∧
        ∀ e ∈ ext, e.index < n ∧ nd.distance ≤ e.distance ∧
          e.distance ≤ nd.distance + vertex_weight g nd.index ∧
          ∃ d, (l.foldl (relax nd) s1).dist.getD e.index none = some d ∧
            d ≤ e.distance) ∧
      (∀ nb ∈ l, ((l.foldl (relax nd) s1).dist.getD nb.index none).isSome) := by
  intro l
  induction l with
  | nil =>
    intro s1 hl hd hp hvd hs0 hINF
    refine ⟨rfl, hd, hp, fun v => Or.inl ⟨rfl, rfl⟩,
      fun v d0 h => ⟨d0, h, le_refl _⟩, ⟨[], by simp, by simp, by simp⟩, by simp⟩
  | cons nb rest ih =>
    intro s1 hl hd hp hvd hs0 hINF
    have hnb := hl nb (List.mem_cons_self _ _)
    rw [List.foldl_cons]
    by_cases hc : nd.distance + nb.distance <
        (s1.dist.getD nb.index none).getD INF_SENTINEL
    · -- the edge relaxes: distance and predecessor are written, an entry pushed
      rw [relax_eq_pos nd s1 nb hc]
      have hnstart : nb.index ≠ start := by
        intro he
        rw [he, hs0] at hc
        simp only [Option.getD_some] at hc
        omega
      have hnvis : s1.visited.getD nb.index false = false := by
        cases hv : s1.visited.getD nb.index false with
        | false => rfl
        | true =>
          obtain ⟨d, hdd, hdk⟩ := hvd _ hv
          rw [hdd] at hc
          simp only [Option.getD_some] at hc
          omega
      have hlt : nb.index < s1.dist.length := by omega
      have hltp : nb.index < s1.pred.length := by omega
      have hd' : (s1.dist.set nb.index (some (nd.distance + nb.distance))).length = n := by
        rw [List.length_set]
        exact hd
      have hp' : (s1.pred.set nb.index (some nd.index)).length = n := by
        rw [List.length_set]
        exact hp
      have hvd' : ∀ v, s1.visited.getD v false = true →
          ∃ d, (s1.dist.set nb.index (some (nd.distance + nb.distance))).getD v none
            = some d ∧ d ≤ nd.distance := by
        intro v hv
        have hne : v ≠ nb.index := by
          intro he
          rw [he, hnvis] at hv
          cases hv
        obtain ⟨d, h1, h2⟩ := hvd v hv
        rw [getD_set_ne _ _ _ _ _ hne]
        exact ⟨d, h1, h2⟩
      have hs0' : (s1.dist.set nb.index (some (nd.distance + nb.distance))).getD
          start none = some 0 := by
        rw [getD_set_ne _ _ _ _ _ (fun he => hnstart he.symm)]
        exact hs0
      obtain ⟨o1, o2, o3, o4, o5, o6, o7⟩ :=
        ih (DState.mk (s1.dist.set nb.index (some (nd.distance + nb.distance)))
            (s1.pred.set nb.index (some nd.index)) s1.visited
            (s1.heap ++ [Node.mk nb.index (nd.distance + nb.distance)]))
          (fun x hx => hl x (List.mem_cons_of_mem _ hx)) hd' hp' hvd' hs0' hINF
      have hself : (s1.dist.set nb.index (some (nd.distance + nb.distance))).getD
          nb.index none = some (nd.distance + nb.distance) :=
        getD_set_self _ _ _ _ hlt
      have hselfp : (s1.pred.set nb.index (some nd.index)).getD nb.index none
          = some nd.index :=
        getD_set_self _ _ _ _ hltp
      obtain ⟨ext, he1, he2, he3⟩ := o6
      refine ⟨o1, o2, o3, ?_, ?_, ?_, ?_⟩
      · intro v
        rcases o4 v with ⟨e1, e2⟩ | hupd
        · by_cases hv : v = nb.index
          · subst hv
            right
            refine ⟨hnb.1, hnstart, hnvis, ?_, ?_, nd.distance + nb.distance, ?_,
              Nat.le_add_right _ _, Nat.add_le_add_left hnb.2 _⟩
            · rw [e2]
              exact hselfp
            · refine List.mem_map.mpr
                ⟨Node.mk nb.index (nd.distance + nb.distance), ?_, rfl⟩
              rw [he1]
              exact List.mem_append_left _
                (List.mem_append_right _ (List.mem_singleton_self _))
            · rw [e1]
              exact hself
          · left
            rw [e1, e2]
            exact ⟨getD_set_ne _ _ _ _ _ hv, getD_set_ne _ _ _ _ _ hv⟩
        · right
          exact hupd
      · intro v d0 h0
        by_cases hv : v = nb.index
        · subst hv
          obtain ⟨d1, h1, h2⟩ := o5 _ _ hself
          refine ⟨d1, h1, h2.trans ?_⟩
          rw [h0] at hc
          simp only [Option.getD_some] at hc
          omega
        · refine o5 v d0 ?_
          rw [getD_set_ne _ _ _ _ _ hv]
          exact h0
      · refine ⟨Node.mk nb.index (nd.distance + nb.distance) :: ext, ?_, ?_, ?_⟩
        · rw [he1]
          simp [List.append_assoc]
        · simp only [List.length_cons]
          omega
        · intro e he
          rcases List.mem_cons.mp he with rfl | hm
          · obtain ⟨d1, h1, h2⟩ := o5 _ _ hself
            exact ⟨hnb.1, Nat.le_add_right _ _, Nat.add_le_add_left hnb.2 _,
              d1, h1, h2⟩
          · exact he3 e hm
      · intro x hx
        rcases List.mem_cons.mp hx with he | hm
        · subst he
          obtain ⟨d1, h1, _⟩ := o5 _ _ hself
          rw [h1]
          rfl
        · exact o7 x hm
    · -- no improvement: the state is unchanged, and the target already has a
      -- recorded distance (else the sentinel comparison would have succeeded)
      rw [relax_eq_neg nd s1 nb hc]
      have hnbsome : ∃ d0, s1.dist.getD nb.index none = some d0 := by
        cases hx : s1.dist.getD nb.index none with
        | none =>
          exfalso
          rw [hx] at hc
          simp only [Option.getD_none] at hc
          have h2 := hnb.2
          unfold INF_SENTINEL at hc hINF
          omega
        | some d0 => exact ⟨d0, rfl⟩
      obtain ⟨o1, o2, o3, o4, o5, o6, o7⟩ :=
        ih s1 (fun x hx => hl x (List.mem_cons_of_mem _ hx)) hd hp hvd hs0 hINF
      obtain ⟨ext, he1, he2, he3⟩ := o6
      refine ⟨o1, o2, o3, o4, o5,
        ⟨ext, he1, he2.trans (by simp), he3⟩, ?_⟩
      intro x hx
      rcases List.mem_cons.mp hx with he | hm
      · subst he
        obtain ⟨d0, h1⟩ := hnbsome
        obtain ⟨d1, h2, _⟩ := o5 _ _ h1
        rw [h2]
        rfl
      · exact o7 x hm

end BestPath

namespace BestPath

theorem visited_getD_lt (l : List Bool) (v : Nat) (h : l.getD v false = true) :
    v < l.length := by
  by_contra hc
  rw [List.getD_eq_default] at h
  · cases h
  · omega

theorem set_true_mono (l : List Bool) (u p : Nat) (h : l.getD p false = true) :
    (l.set u true).getD p false = true := by
  by_cases hpu : p = u
  · subst hpu
    rw [getD_set_self _ _ _ _ (visited_getD_lt l p h)]
  · rw [getD_set_ne _ _ _ _ _ hpu]
    exact h

theorem chain_length_le (n : Nat) (l : List Nat) (hnd : l.Nodup)
    (hlt : ∀ c ∈ l, c < n) : l.length ≤ n := by
  have h1 : l.toFinset.card = l.length := List.toFinset_card_of_nodup hnd
  have h2 : l.toFinset ⊆ Finset.range n := by
    intro c hc
    exact Finset.mem_range.mpr (hlt c (List.mem_toFinset.mp hc))
  have h3 := Finset.card_le_card h2
  rw [h1] at h3
  simpa using h3

theorem dijkstra_loop_spec (g : List (List Node)) (start : Nat)
    (hwf : ∀ u, ∀ nd ∈ g.getD u [], nd.index < g.length)
    (hW : weight_total g < INF_SENTINEL) :
    ∀ (fuel : Nat) (s : DState), dijkstra_inv g start s →
      s.heap.length + unvisited_deg g s.visited ≤ fuel →
      dijkstra_inv g start (dijkstra_loop g fuel s) ∧
      (dijkstra_loop g fuel s).heap = [] := by
  intro fuel
  induction fuel with
  | zero =>
    intro s hinv hphi
    have hh : s.heap = [] := by
      cases hh : s.heap with
      | nil => rfl
      | cons a b => rw [hh] at hphi; simp at hphi
    exact ⟨hinv, hh⟩
  | succ fuel ih =>
    intro s hinv hphi
    show dijkstra_inv g start (dijkstra_loop g (fuel + 1) s) ∧ _
    unfold dijkstra_loop
    cases hpop : pop_min s.heap with
    | none =>
      have hh : s.heap = [] := (pop_min_none_iff s.heap).mp hpop
      exact ⟨hinv, hh⟩
    | some p =>
      obtain ⟨nd, heap'⟩ := p
      obtain ⟨hL1, hL2, hL3, hS0, hP0, hSP, hPV, hH1, hH2, hKB, hCL, hDS, hR⟩ := hinv
      have hndmem := pop_min_mem _ _ _ hpop
      have hsub := pop_min_sub _ _ _ hpop
      have hmin := (pop_min_spec _ _ _ hpop).2
      have hheaplen : s.heap.length = heap'.length + 1 := pop_min_length _ _ _ hpop
      dsimp only
      by_cases hvis : s.visited.getD nd.index false = true
      · -- stale pop: the entry's vertex is already finalised, drop it
        rw [if_pos hvis]
        refine ih { s with heap := heap' }
          ⟨hL1, hL2, hL3, hS0, hP0, hSP, hPV, ?_, ?_, ?_, hCL, ?_, hR⟩ ?_
        · intro e he
          exact hH1 e (hsub e he)
        · intro v hv
          obtain ⟨d, h1, h2⟩ := hH2 v hv
          exact ⟨d, h1, fun e he => h2 e (hsub e he)⟩
        · intro e he
          exact hKB e (hsub e he)
        · intro v hv
          rcases hDS v hv with h | h
          · exact Or.inl h
          · obtain ⟨e, he, hei⟩ := List.mem_map.mp h
            rcases pop_min_mem_split _ _ _ hpop e he with heq | hm
            · left
              rw [← hei, heq]
              exact hvis
            · exact Or.inr (List.mem_map.mpr ⟨e, hm, hei⟩)
        · dsimp only
          omega
      · -- fresh visit: finalise the vertex and relax its out-edges
        rw [if_neg hvis]
        show dijkstra_inv g start (dijkstra_loop g fuel
          ((g.getD nd.index []).foldl (relax nd)
            (DState.mk s.dist s.pred (s.visited.set nd.index true) heap'))) ∧ _
        have hvis' : s.visited.getD nd.index false = false := by
          cases hb : s.visited.getD nd.index false
          · rfl
          · exact absurd hb hvis
        obtain ⟨hu, du, hdu, hduk⟩ := hH1 nd hndmem
        have hvw : nd.distance ≤ visited_weight g s.visited := hKB nd hndmem
        have hvwset := visited_weight_set g s.visited nd.index hu hL3 hvis'
        have hINF : nd.distance + vertex_weight g nd.index < INF_SENTINEL := by
          have h1 := visited_weight_le_total g (s.visited.set nd.index true)
          rw [hvwset] at h1
          omega
        have hl : ∀ nb ∈ g.getD nd.index [],
            nb.index < g.length ∧ nb.distance ≤ vertex_weight g nd.index := by
          intro nb hnbm
          refine ⟨hwf _ _ hnbm, ?_⟩
          unfold vertex_weight
          exact List.single_le_sum (fun x _ => Nat.zero_le x) _
            (List.mem_map_of_mem _ hnbm)
        have hvd1 : ∀ v,
            (DState.mk s.dist s.pred (s.visited.set nd.index true)
              heap').visited.getD v false = true →
            ∃ d, (DState.mk s.dist s.pred (s.visited.set nd.index true)
              heap').dist.getD v none = some d ∧ d ≤ nd.distance := by
          intro v hv
          dsimp only at hv ⊢
          by_cases hveq : v = nd.index
          · subst hveq
            exact ⟨du, hdu, hduk⟩
          · rw [getD_set_ne _ _ _ _ _ hveq] at hv
            obtain ⟨d, h1, h2⟩ := hH2 v hv
            exact ⟨d, h1, h2 nd hndmem⟩
        obtain ⟨o1, o2, o3, o4, o5, o6, o7⟩ :=
          relax_fold_spec g start nd g.length (g.getD nd.index [])
            (DState.mk s.dist s.pred (s.visited.set nd.index true) heap')
            hl hL1 hL2 hvd1 hS0 hINF
        obtain ⟨ext, he1, he2, he3⟩ := o6
        dsimp only at o1 o4 o5 he1 he3 o7
        -- vertices updated by the fold are fresh: unvisited in `s`
        have hagree : ∀ c, (s.visited.set nd.index true).getD c false = true →
            ((g.getD nd.index []).foldl (relax nd)
              (DState.mk s.dist s.pred (s.visited.set nd.index true)
                heap')).pred.getD c none = s.pred.getD c none := by
          intro c hc
          rcases o4 c with ⟨_, e2⟩ | ⟨_, _, hcf, _⟩
          · exact e2
          · rw [hc] at hcf
            cases hcf
        have hkey : ∀ e ∈ ((g.getD nd.index []).foldl (relax nd)
            (DState.mk s.dist s.pred (s.visited.set nd.index true)
              heap')).heap, nd.distance ≤ e.distance := by
          intro e he
          rw [he1] at he
          rcases List.mem_append.mp he with h | h
          · exact hmin e (hsub e h)
          · exact (he3 e h).2.1
        refine ih _ ⟨o2, o3, ?_, ?_, ?_, ?_, ?_, ?_, ?_, ?_, ?_, ?_, ?_⟩ ?_
        · -- visited length
          rw [o1]
          rw [List.length_set]
          exact hL3
        · -- start distance
          rcases o4 start with ⟨e1, _⟩ | ⟨_, hne, _⟩
          · rw [e1]
            exact hS0
          · exact absurd rfl hne
        · -- start predecessor
          rcases o4 start with ⟨_, e2⟩ | ⟨_, hne, _⟩
          · rw [e2]
            exact hP0
          · exact absurd rfl hne
        · -- distance recorded iff start or predecessor recorded
          intro v
          rcases o4 v with ⟨e1, e2⟩ | ⟨_, _, _, hpred, _, d, hd, _⟩
          · rw [e1, e2]
            exact hSP v
          · refine ⟨fun _ => Or.inr ?_, fun _ => ?_⟩
            · rw [hpred]
              rfl
            · rw [hd]
              rfl
        · -- predecessors are in-bounds visited vertices
          intro v p hp
          rcases o4 v with ⟨_, e2⟩ | ⟨_, _, _, hpred, _⟩
          · rw [e2] at hp
            obtain ⟨hpn, hpv⟩ := hPV v p hp
            refine ⟨hpn, ?_⟩
            rw [o1]
            exact set_true_mono _ _ _ hpv
          · rw [hpred] at hp
            cases hp
            refine ⟨hu, ?_⟩
            rw [o1]
            exact getD_set_self _ _ _ _ (by omega : nd.index < s.visited.length)
        · -- heap entries in-bounds, key dominates recorded distance
          intro e he
          rw [he1] at he
          rcases List.mem_append.mp he with h | h
          · obtain ⟨hei, d, hd, hdk⟩ := hH1 e (hsub e h)
            obtain ⟨d1, h1, h2⟩ := o5 _ _ hd
            exact ⟨hei, d1, h1, h2.trans hdk⟩
          · obtain ⟨hei, _, _, d, hd, hdk⟩ := he3 e h
            exact ⟨hei, d, hd, hdk⟩
        · -- visited distances dominate no queued key
          intro v hv
          rw [o1] at hv
          obtain ⟨d, hd1, hdk⟩ := hvd1 v hv
          rcases o4 v with ⟨e1, _⟩ | ⟨_, _, hcf, _⟩
          · refine ⟨d, by rw [e1]; exact hd1, ?_⟩
            intro e he
            exact hdk.trans (hkey e he)
          · rw [hv] at hcf
            cases hcf
        · -- queued keys bounded by the visited-region weight
          intro e he
          rw [o1]
          rw [hvwset]
          rw [he1] at he
          rcases List.mem_append.mp he with h | h
          · have := hKB e (hsub e h)
            omega
          · have := (he3 e h).2.2.1
            omega
        · -- out-edges of visited vertices have recorded distances
          intro w hw nd' hnd'
          rw [o1] at hw
          by_cases hweq : w = nd.index
          · subst hweq
            exact o7 nd' hnd'
          · rw [getD_set_ne _ _ _ _ _ hweq] at hw
            have hsome := hCL w hw nd' hnd'
            obtain ⟨d, hd⟩ := Option.isSome_iff_exists.mp hsome
            obtain ⟨d1, h1, _⟩ := o5 _ _ hd
            rw [h1]
            rfl
        · -- recorded distance means visited or queued
          intro v hv
          rcases o4 v with ⟨e1, _⟩ | ⟨_, _, _, _, hmem, _⟩
          · rw [e1] at hv
            rcases hDS v hv with h | h
            · left
              rw [o1]
              exact set_true_mono _ _ _ h
            · obtain ⟨e, he, hei⟩ := List.mem_map.mp h
              rcases pop_min_mem_split _ _ _ hpop e he with heq | hm
              · left
                rw [o1]
                rw [← hei, heq]
                exact getD_set_self _ _ _ _ (by omega : nd.index < s.visited.length)
              · right
                refine List.mem_map.mpr ⟨e, ?_, hei⟩
                rw [he1]
                exact List.mem_append_left _ hm
          · exact Or.inr hmem
        · -- every vertex keeps a terminating, duplicate-free predecessor walk
          intro v hvn
          rcases o4 v with ⟨_, e2⟩ | ⟨_, _, hvf, hpred, _⟩
          · obtain ⟨C, hC, hCnd, hCtail⟩ := hR v hvn
            have hCne : C ≠ [] := (walk_back_length_le _ _ _ _ hC).2
            have hChead : C.head? = some v := walk_back_head_eq _ _ _ _ hC
            have hCagree : ∀ c ∈ C,
                ((g.getD nd.index []).foldl (relax nd)
                  (DState.mk s.dist s.pred (s.visited.set nd.index true)
                    heap')).pred.getD c none = s.pred.getD c none := by
              intro c hc
              cases C with
              | nil => exact absurd rfl hCne
              | cons a tC =>
                simp only [List.head?_cons, Option.some.injEq] at hChead
                subst hChead
                rcases List.mem_cons.mp hc with rfl | htc
                · exact e2
                · exact hagree c (set_true_mono _ _ _ (hCtail c htc))
            refine ⟨C, walk_back_congr _ _ _ _ _ hC
              (fun c hc => hCagree c hc), hCnd, ?_⟩
            intro c hc
            rw [o1]
            exact set_true_mono _ _ _ (hCtail c hc)
          · -- the vertex was re-pointed at the freshly visited one
            obtain ⟨Cu, hCu, hCund, hCutail⟩ := hR nd.index hu
            have hCune : Cu ≠ [] := (walk_back_length_le _ _ _ _ hCu).2
            have hCuhead : Cu.head? = some nd.index := walk_back_head_eq _ _ _ _ hCu
            have hCuvis : ∀ c ∈ Cu,
                (s.visited.set nd.index true).getD c false = true := by
              intro c hc
              cases Cu with
              | nil => exact absurd rfl hCune
              | cons a tC =>
                simp only [List.head?_cons, Option.some.injEq] at hCuhead
                subst hCuhead
                rcases List.mem_cons.mp hc with rfl | htc
                · exact getD_set_self _ _ _ _ (by omega : nd.index < s.visited.length)
                · exact set_true_mono _ _ _ (hCutail c htc)
            have hCu2 := walk_back_congr _ _ _ _ _ hCu
              (fun c hc => hagree c (hCuvis c hc))
            have hCult : ∀ c ∈ Cu, c < g.length := by
              intro c hc
              cases Cu with
              | nil => exact absurd rfl hCune
              | cons a tC =>
                simp only [List.head?_cons, Option.some.injEq] at hCuhead
                subst hCuhead
                rcases List.mem_cons.mp hc with rfl | htc
                · exact hu
                · have := visited_getD_lt _ _ (hCutail c htc)
                  omega
            have hCulen : Cu.length ≤ g.length := chain_length_le _ _ hCund hCult
            have hCu3 := walk_back_mono _ _ _ _ hCu2 g.length hCulen
            have hwalkv : walk_back ((g.getD nd.index []).foldl (relax nd)
                (DState.mk s.dist s.pred (s.visited.set nd.index true)
                  heap')).pred (g.length + 1) v = some (v :: Cu) := by
              rw [walk_back_cons_eq _ g.length v nd.index hpred, hCu3]
            have hvnotin : v ∉ Cu := by
              intro hvin
              have := hCuvis v hvin
              rw [hvf] at this
              cases this
            refine ⟨v :: Cu, hwalkv, List.nodup_cons.mpr ⟨hvnotin, hCund⟩, ?_⟩
            intro c hc
            rw [o1]
            exact hCuvis c hc
        · -- fuel: the heap grows by at most the degree of the finalised
          -- vertex, whose adjacency entries leave the unvisited count
          have hlen2 : ((g.getD nd.index []).foldl (relax nd)
              (DState.mk s.dist s.pred (s.visited.set nd.index true)
                heap')).heap.length = heap'.length + ext.length := by
            rw [he1]
            simp
          have hud := unvisited_deg_set g s.visited nd.index hu hL3 hvis'
          rw [o1]
          omega

end BestPath

namespace BestPath

theorem walk_back_singleton (predecessor : List (Option Nat)) (f v : Nat)
    (h : walk_back predecessor f v = some [v]) :
    predecessor.getD v none = none := by
  cases f with
  | zero => cases h
  | succ f =>
    unfold walk_back at h
    cases hp : predecessor.getD v none with
    | none => rfl
    | some u =>
      rw [hp] at h
      dsimp only at h
      cases hw : walk_back predecessor f u with
      | none => rw [hw] at h; cases h
      | some l =>
        rw [hw] at h
        simp only [Option.some.injEq] at h
        have hne : l ≠ [] := (walk_back_length_le predecessor f u l hw).2
        cases l with
        | nil => exact absurd rfl hne
        | cons a as => simp at h

theorem dijkstra_spec (g : List (List Node)) (start : Nat)
    (hwf : ∀ u, ∀ nd ∈ g.getD u [], nd.index < g.length)
    (hstart : start < g.length) (hW : weight_total g < INF_SENTINEL) :
    (dijkstra g start).1.length = g.length ∧
    (dijkstra g start).2.length = g.length ∧
    (dijkstra g start).1.getD start none = some 0 ∧
    (dijkstra g start).2.getD start none = none ∧
    (∀ v, ((dijkstra g start).1.getD v none).isSome ↔
      (v = start ∨ ((dijkstra g start).2.getD v none).isSome)) ∧
    (∀ v p, (dijkstra g start).2.getD v none = some p →
      p < g.length ∧ ((dijkstra g start).1.getD p none).isSome) ∧
    (∀ v, v < g.length → ∃ chain,
      walk_back (dijkstra g start).2 (g.length + 1) v = some chain ∧
      chain.Nodup ∧ chain.head? = some v ∧
      (chain = [v] ∨ chain.getLast? = some start)) ∧
    (∀ v, reach g start v → ((dijkstra g start).1.getD v none).isSome) := by
  have hrepl : ∀ v, (List.replicate g.length (none : Option Nat)).getD v none
      = none := by
    intro v
    by_cases hvn : v < g.length
    · exact getD_replicate' _ _ _ _ hvn
    · rw [List.getD_eq_default]
      simp
      omega
  have hreplb : ∀ v, (List.replicate g.length false).getD v false = false := by
    intro v
    by_cases hvn : v < g.length
    · exact getD_replicate' _ _ _ _ hvn
    · rw [List.getD_eq_default]
      simp
      omega
  have hdist0 : ∀ v, ((List.replicate g.length (none : Option Nat)).set start
      (some 0)).getD v none = if v = start then some 0 else none := by
    intro v
    by_cases hv : v = start
    · subst hv
      rw [if_pos rfl]
      exact getD_set_self _ _ _ _ (by simpa using hstart)
    · rw [if_neg hv, getD_set_ne _ _ _ _ _ hv]
      exact hrepl v
  have hinv0 : dijkstra_inv g start
      ⟨(List.replicate g.length (none : Option Nat)).set start (some 0),
       List.replicate g.length (none : Option Nat),
       List.replicate g.length false, [Node.mk start 0]⟩ := by
    refine ⟨by simp, by simp, by simp, ?_, ?_, ?_, ?_, ?_, ?_, ?_, ?_, ?_, ?_⟩
    · rw [hdist0, if_pos rfl]
    · exact hrepl start
    · intro v
      rw [hdist0]
      by_cases hv : v = start
      · subst hv
        simp
      · rw [if_neg hv, hrepl v]
        simp [hv]
    · intro v p hp
      rw [hrepl v] at hp
      cases hp
    · intro e he
      simp only [List.mem_singleton] at he
      subst he
      refine ⟨hstart, 0, ?_, le_refl _⟩
      rw [hdist0, if_pos rfl]
    · intro v hv
      rw [hreplb v] at hv
      cases hv
    · intro e he
      simp only [List.mem_singleton] at he
      subst he
      exact Nat.zero_le _
    · intro u hu
      rw [hreplb u] at hu
      cases hu
    · intro v hv
      rw [hdist0] at hv
      by_cases hve : v = start
      · subst hve
        right
        simp
      · rw [if_neg hve] at hv
        cases hv
    · intro v hvn
      refine ⟨[v], walk_back_root_eq _ _ _ (hrepl v), by simp, ?_⟩
      intro c hc
      cases hc
  obtain ⟨hf, hheap⟩ := dijkstra_loop_spec g start hwf hW (1 + total_deg g) _
    hinv0 (by simp [unvisited_deg_init])
  obtain ⟨hL1, hL2, hL3, hS0, hP0, hSP, hPV, hH1, hH2, hKB, hCL, hDS, hR⟩ := hf
  have hdp : dijkstra g start =
      ((dijkstra_loop g (1 + total_deg g)
        ⟨(List.replicate g.length (none : Option Nat)).set start (some 0),
         List.replicate g.length (none : Option Nat),
         List.replicate g.length false, [Node.mk start 0]⟩).dist,
       (dijkstra_loop g (1 + total_deg g)
        ⟨(List.replicate g.length (none : Option Nat)).set start (some 0),
         List.replicate g.length (none : Option Nat),
         List.replicate g.length false, [Node.mk start 0]⟩).pred) := rfl
  rw [hdp]
  refine ⟨hL1, hL2, hS0, hP0, hSP, ?_, ?_, ?_⟩
  · intro v p hp
    obtain ⟨hpn, hpv⟩ := hPV v p hp
    obtain ⟨d, hd, _⟩ := hH2 p hpv
    refine ⟨hpn, ?_⟩
    rw [hd]
    rfl
  · intro v hvn
    obtain ⟨chain, hC, hCnd, hCtail⟩ := hR v hvn
    have hChead : chain.head? = some v := walk_back_head_eq _ _ _ _ hC
    have hCne : chain ≠ [] := (walk_back_length_le _ _ _ _ hC).2
    refine ⟨chain, hC, hCnd, hChead, ?_⟩
    by_cases hone : chain = [v]
    · exact Or.inl hone
    · right
      obtain ⟨r, hr1, hr2⟩ := walk_back_last_root _ _ _ _ hC
      rw [hr1]
      have hrmem : r ∈ chain := by
        obtain ⟨hne', heq⟩ :=
          List.mem_getLast?_eq_getLast (Option.mem_def.mpr hr1)
        exact heq ▸ List.getLast_mem hne'
      cases hcs : chain with
      | nil => exact absurd hcs hCne
      | cons a tC =>
        rw [hcs] at hChead
        simp only [List.head?_cons, Option.some.injEq] at hChead
        subst hChead
        rw [hcs] at hrmem
        rcases List.mem_cons.mp hrmem with rfl | htc
        · -- the root is the walk's own head: then the walk is trivial
          exfalso
          have h2 := walk_back_root_eq (dijkstra_loop g (1 + total_deg g)
            ⟨(List.replicate g.length (none : Option Nat)).set start (some 0),
             List.replicate g.length (none : Option Nat),
             List.replicate g.length false, [Node.mk start 0]⟩).pred
            g.length r hr2
          rw [hC] at h2
          simp only [Option.some.injEq] at h2
          exact hone h2
        · have hrv : (dijkstra_loop g (1 + total_deg g)
              ⟨(List.replicate g.length (none : Option Nat)).set start (some 0),
               List.replicate g.length (none : Option Nat),
               List.replicate g.length false,
               [Node.mk start 0]⟩).visited.getD r false = true := by
            have := hCtail r
            rw [hcs] at this
            exact this htc
          obtain ⟨d, hd, _⟩ := hH2 r hrv
          have hiff := (hSP r).mp (by rw [hd]; rfl)
          rcases hiff with h | h
          · congr 1
          · rw [hr2] at h
            cases h
  · intro v hreach
    have hstartv : (dijkstra_loop g (1 + total_deg g)
        ⟨(List.replicate g.length (none : Option Nat)).set start (some 0),
         List.replicate g.length (none : Option Nat),
         List.replicate g.length false,
         [Node.mk start 0]⟩).dist.getD start none = some 0 := hS0
    induction hreach with
    | refl =>
      rw [hstartv]
      rfl
    | step hr1 hmem ihh =>
      rcases hDS _ ihh with h | h
      · have := hCL _ h _ hmem
        exact this
      · rw [hheap] at h
        cases h

end BestPath

namespace BestPath

/-- **C6.** For every requested target the engine's result is governed by the
predecessor walk from that target: the walk always terminates, starts at the
target, and the entry reports `path = none` with sentinel total cost 0
exactly when the walk contains no vertex other than the target itself (in
particular when the target is the start); otherwise the entry's path is the
reversed walk, leading from the start to the target. -/
theorem c6_unreachable_sentinel (g : List (List Node)) (start : Nat)
    (targets : List Nat)
    (hwf : ∀ u, ∀ nd ∈ g.getD u [], nd.index < g.length)
    (hstart : start < g.length) (hW : weight_total g < INF_SENTINEL) :
    ∀ pr ∈ find_shortest_paths g start targets,
      ∃ chain, walk_back (dijkstra g start).2 (g.length + 1) pr.target_node
          = some chain ∧
        chain.head? = some pr.target_node ∧
        ((pr.path = none ∧ pr.total_cost = 0) ↔ chain = [pr.target_node]) ∧
        (∀ p, pr.path = some p → p = chain.reverse ∧ p.head? = some start ∧
          p.getLast? = some pr.target_node) := by
  obtain ⟨hL1, hL2, hS0, hP0, hSP, hPT, hCh, hComp⟩ :=
    dijkstra_spec g start hwf hstart hW
  intro pr hpr
  simp only [find_shortest_paths, List.mem_map] at hpr
  obtain ⟨t, ht, rfl⟩ := hpr
  dsimp only
  by_cases htn : t < g.length
  · obtain ⟨chain, hC, hCnd, hChead, hroot⟩ := hCh t htn
    have hC' : walk_back (dijkstra g start).2 ((dijkstra g start).2.length + 1) t
        = some chain := by
      rw [hL2]
      exact hC
    have hCne : chain ≠ [] := (walk_back_length_le _ _ _ _ hC).2
    have hlen0 : ¬ chain.reverse.length = 0 := by
      intro h0
      rw [List.length_reverse] at h0
      exact hCne (List.length_eq_zero.mp h0)
    have hrec : reconstruct_shortest_path (dijkstra g start).2 t =
        if chain.reverse = [t] then none else some chain.reverse := by
      unfold reconstruct_shortest_path
      rw [hC']
      dsimp only
      rw [if_neg hlen0]
    have hrevone : chain.reverse = [t] ↔ chain = [t] := by
      constructor
      · intro h
        rw [← List.reverse_reverse chain, h]
        rfl
      · intro h
        rw [h]
        rfl
    refine ⟨chain, hC, hChead, ?_, ?_⟩
    · constructor
      · intro hpn
        by_cases hone : chain.reverse = [t]
        · exact hrevone.mp hone
        · rw [hrec, if_neg hone] at hpn
          cases hpn.1
      · intro hone
        have hpred : (dijkstra g start).2.getD t none = none := by
          refine walk_back_singleton _ (g.length + 1) t ?_
          rw [← hone]
          exact hC
        constructor
        · rw [hrec, if_pos (hrevone.mpr hone)]
        · by_cases hts : t = start
          · subst hts
            rw [hS0]
          · have hnone : (dijkstra g start).1.getD t none = none := by
              cases hx : (dijkstra g start).1.getD t none with
              | none => rfl
              | some d =>
                rcases (hSP t).mp (by rw [hx]; rfl) with h | h
                · exact absurd h hts
                · rw [hpred] at h
                  cases h
            rw [hnone]
    · intro p hp
      by_cases hone : chain.reverse = [t]
      · rw [hrec, if_pos hone] at hp
        cases hp
      · rw [hrec, if_neg hone] at hp
        cases hp
        have hlast : chain.getLast? = some start := by
          rcases hroot with h | h
          · exact absurd (by rw [h]; rfl) hone
          · exact h
        refine ⟨rfl, ?_, ?_⟩
        · rw [List.head?_reverse]
          exact hlast
        · rw [List.getLast?_reverse]
          exact hChead
  · -- target index outside the graph: no predecessor, trivial walk
    have hpred : (dijkstra g start).2.getD t none = none := by
      rw [List.getD_eq_default]
      omega
    have hwb : walk_back (dijkstra g start).2 (g.length + 1) t = some [t] := by
      cases hg : g.length + 1 with
      | zero => cases hg
      | succ f => exact walk_back_root_eq _ _ _ hpred
    have hwb' : walk_back (dijkstra g start).2 ((dijkstra g start).2.length + 1) t
        = some [t] := by
      rw [hL2]
      exact hwb
    have hrec : reconstruct_shortest_path (dijkstra g start).2 t = none := by
      unfold reconstruct_shortest_path
      rw [hwb']
      dsimp only
      rw [if_neg (by simp)]
      rw [if_pos (show ([t] : List Nat).reverse = [t] by simp)]
    have hnone : (dijkstra g start).1.getD t none = none := by
      rw [List.getD_eq_default]
      omega
    refine ⟨[t], hwb, rfl, ?_, ?_⟩
    · constructor
      · intro _
        rfl
      · intro _
        constructor
        · exact hrec
        · rw [hnone]
    · intro p hp
      rw [hrec] at hp
      cases hp

theorem gtwo_wf : ∀ u, ∀ nd ∈ ([[Node.mk 1 1], [Node.mk 0 1]] :
    List (List Node)).getD u [],
    nd.index < ([[Node.mk 1 1], [Node.mk 0 1]] : List (List Node)).length := by
  intro u nd hnd
  match u with
  | 0 =>
    simp only [List.getD_cons_zero, List.mem_singleton] at hnd
    subst hnd
    decide
  | 1 =>
    simp only [List.getD_cons_succ, List.getD_cons_zero, List.mem_singleton] at hnd
    subst hnd
    decide
  | u + 2 =>
    rw [List.getD_eq_default] at hnd
    · cases hnd
    · simp

theorem c6_witness :
    ∃ chain, walk_back (dijkstra [[Node.mk 1 1], [Node.mk 0 1]] 0).2 3
        (PathResult.mk (some [0, 1]) 1 1).target_node = some chain ∧
      chain.head? = some (PathResult.mk (some [0, 1]) 1 1).target_node ∧
      (((PathResult.mk (some [0, 1]) 1 1).path = none ∧
        (PathResult.mk (some [0, 1]) 1 1).total_cost = 0) ↔
        chain = [(PathResult.mk (some [0, 1]) 1 1).target_node]) ∧
      (∀ p, (PathResult.mk (some [0, 1]) 1 1).path = some p →
        p = chain.reverse ∧ p.head? = some 0 ∧
        p.getLast? = some (PathResult.mk (some [0, 1]) 1 1).target_node) := by
  have h := c6_unreachable_sentinel [[Node.mk 1 1], [Node.mk 0 1]] 0 [1]
    gtwo_wf (by decide) (by decide)
  have hm : PathResult.mk (some [0, 1]) 1 1 ∈
      find_shortest_paths [[Node.mk 1 1], [Node.mk 0 1]] 0 [1] := by
    have he : find_shortest_paths [[Node.mk 1 1], [Node.mk 0 1]] 0 [1] =
        [PathResult.mk (some [0, 1]) 1 1] := by rfl
    rw [he]
    exact List.mem_singleton_self _
  exact h _ hm

end BestPath

namespace BestPath

/-! Composition of the reachability filter with the router (claim C7). -/

theorem reach_trans (g : List (List Node)) (a b c : Nat)
    (h1 : reach g a b) (h2 : reach g b c) : reach g a c := by
  induction h2 with
  | refl => exact h1
  | step _ hmem ih => exact reach.step ih hmem

theorem reach_symm (g : List (List Node))
    (hsym : ∀ u v w, Node.mk v w ∈ g.getD u [] → ∃ w2, Node.mk u w2 ∈ g.getD v [])
    (a b : Nat) (h : reach g a b) : reach g b a := by
  induction h with
  | refl => exact reach.refl
  | step hr hmem ih =>
    obtain ⟨w2, hmem2⟩ := hsym _ _ _ hmem
    exact reach_trans g _ _ _ (reach.step reach.refl hmem2) ih

theorem filter_ne_length (t : Nat) : ∀ (l : List Nat), l.Nodup → t ∈ l →
    (l.filter (fun x => x ≠ t)).length + 1 = l.length := by
  intro l
  induction l with
  | nil => intro _ h; cases h
  | cons a rest ih =>
    intro hnd hm
    simp only [List.filter_cons]
    rcases List.mem_cons.mp hm with rfl | hm'
    · rw [if_neg (by simp)]
      rw [List.filter_eq_self.mpr ?_]
      · simp
      · intro x hx
        have hxt : x ≠ t := fun he => (List.nodup_cons.mp hnd).1 (he ▸ hx)
        simp [hxt]
    · have hat : a ≠ t := fun he => (List.nodup_cons.mp hnd).1 (he ▸ hm')
      rw [if_pos (by simp [hat])]
      simp only [List.length_cons]
      rw [← ih (List.nodup_cons.mp hnd).2 hm']

theorem min_by_fold_some : ∀ (l : List PathResult) (r : PathResult),
    ∃ q, l.foldl (fun acc p =>
      match acc with
      | none => some p
      | some q => if p.total_cost < q.total_cost then some p else acc)
      (some r) = some q := by
  intro l
  induction l with
  | nil => intro r; exact ⟨r, rfl⟩
  | cons p rest ih =>
    intro r
    rw [List.foldl_cons]
    dsimp only
    by_cases hc : p.total_cost < r.total_cost
    · rw [if_pos hc]
      exact ih p
    · rw [if_neg hc]
      exact ih r

theorem min_by_total_cost_ne_none (paths : List PathResult) (hne : paths ≠ []) :
    ∃ q, min_by_total_cost paths = some q := by
  cases paths with
  | nil => exact absurd rfl hne
  | cons p rest =>
    unfold min_by_total_cost
    rw [List.foldl_cons]
    exact min_by_fold_some rest p

theorem min_by_fold_mem : ∀ (l : List PathResult) (acc : Option PathResult)
    (q : PathResult),
    l.foldl (fun acc p =>
      match acc with
      | none => some p
      | some q => if p.total_cost < q.total_cost then some p else acc)
      acc = some q → q ∈ l ∨ acc = some q := by
  intro l
  induction l with
  | nil => intro acc q h; exact Or.inr h
  | cons p rest ih =>
    intro acc q h
    rw [List.foldl_cons] at h
    cases acc with
    | none =>
      rcases ih _ _ h with hm | he
      · exact Or.inl (List.mem_cons_of_mem _ hm)
      · dsimp only at he
        rw [Option.some_inj] at he
        exact Or.inl (he ▸ List.mem_cons_self _ _)
    | some r =>
      dsimp only at h
      by_cases hc : p.total_cost < r.total_cost
      · rw [if_pos hc] at h
        rcases ih _ _ h with hm | he
        · exact Or.inl (List.mem_cons_of_mem _ hm)
        · rw [Option.some_inj] at he
          exact Or.inl (he ▸ List.mem_cons_self _ _)
      · rw [if_neg hc] at h
        rcases ih _ _ h with hm | he
        · exact Or.inl (List.mem_cons_of_mem _ hm)
        · exact Or.inr he

theorem min_by_total_cost_mem (paths : List PathResult) (q : PathResult)
    (h : min_by_total_cost paths = some q) : q ∈ paths := by
  unfold min_by_total_cost at h
  rcases min_by_fold_mem paths none q h with hm | he
  · exact hm
  · cases he

theorem reconstruct_of_reach (g : List (List Node)) (cur t : Nat)
    (hwf : ∀ u, ∀ nd ∈ g.getD u [], nd.index < g.length)
    (hW : weight_total g < INF_SENTINEL)
    (hcur : cur < g.length) (hr : reach g cur t) (hne : t ≠ cur) :
    ∃ p, reconstruct_shortest_path (dijkstra g cur).2 t = some p ∧
      p.head? = some cur ∧ p.getLast? = some t := by
  obtain ⟨hL1, hL2, hS0, hP0, hSP, hPT, hCh, hComp⟩ :=
    dijkstra_spec g cur hwf hcur hW
  have htn : t < g.length := reach_lt g cur hwf hcur t hr
  obtain ⟨chain, hC, hCnd, hChead, hroot⟩ := hCh t htn
  have hsome := hComp t hr
  have hpred : ((dijkstra g cur).2.getD t none).isSome := by
    rcases (hSP t).mp hsome with h | h
    · exact absurd h hne
    · exact h
  have hone : chain ≠ [t] := by
    intro he
    have := walk_back_singleton _ (g.length + 1) t (he ▸ hC)
    rw [this] at hpred
    cases hpred
  have hC' : walk_back (dijkstra g cur).2 ((dijkstra g cur).2.length + 1) t
      = some chain := by
    rw [hL2]
    exact hC
  have hCne : chain ≠ [] := (walk_back_length_le _ _ _ _ hC).2
  have hlen0 : ¬ chain.reverse.length = 0 := by
    intro h0
    rw [List.length_reverse] at h0
    exact hCne (List.length_eq_zero.mp h0)
  have hrevne : chain.reverse ≠ [t] := by
    intro h
    refine hone ?_
    rw [← List.reverse_reverse chain, h]
    rfl
  have hrec : reconstruct_shortest_path (dijkstra g cur).2 t
      = some chain.reverse := by
    unfold reconstruct_shortest_path
    rw [hC']
    dsimp only
    rw [if_neg hlen0, if_neg hrevne]
  refine ⟨chain.reverse, hrec, ?_, ?_⟩
  · rw [List.head?_reverse]
    rcases hroot with h | h
    · exact absurd h hone
    · exact h
  · rw [List.getLast?_reverse]
    exact hChead

end BestPath

namespace BestPath

theorem build_path_loop_spec (g : List (List Node))
    (coords : Nat → Option (Nat × Nat))
    (hwf : ∀ u, ∀ nd ∈ g.getD u [], nd.index < g.length)
    (hW : weight_total g < INF_SENTINEL)
    (hsym : ∀ u v w, Node.mk v w ∈ g.getD u [] → ∃ w2, Node.mk u w2 ∈ g.getD v []) :
    ∀ (fuel : Nat) (cur : Nat) (remaining : List Nat)
      (acc : List (List Direction)),
      cur < g.length → remaining.Nodup → cur ∉ remaining →
      (∀ t ∈ remaining, reach g cur t) →
      remaining.length < fuel →
      ∃ res, build_path_loop g coords fuel cur remaining acc = some res ∧
        ∀ segs, res = Except.ok segs →
          segs.length = acc.length + remaining.length := by
  intro fuel
  induction fuel with
  | zero =>
    intro cur remaining acc _ _ _ _ hlt
    omega
  | succ fuel ih =>
    intro cur remaining acc hcur hnd hnin hreach hlt
    unfold build_path_loop
    by_cases hemp : remaining.isEmpty = true
    · rw [if_pos hemp]
      refine ⟨Except.ok acc, rfl, ?_⟩
      intro segs hseg
      obtain rfl : acc = segs := by simpa using hseg
      rw [List.isEmpty_iff.mp hemp]
      simp
    · rw [if_neg hemp]
      have hrne : remaining ≠ [] := by
        intro h
        rw [h] at hemp
        exact hemp rfl
      dsimp only
      have hfne : find_shortest_paths g cur remaining ≠ [] := by
        intro h
        apply hrne
        simp only [find_shortest_paths] at h
        simpa using h
      obtain ⟨best, hbest⟩ :=
        min_by_total_cost_ne_none (find_shortest_paths g cur remaining) hfne
      have hbmem := min_by_total_cost_mem _ _ hbest
      rw [hbest]
      dsimp only
      simp only [find_shortest_paths, List.mem_map] at hbmem
      obtain ⟨t, htmem, hbeq⟩ := hbmem
      subst hbeq
      dsimp only
      have htr := hreach t htmem
      have htne : t ≠ cur := fun h => hnin (h ▸ htmem)
      have htlt : t < g.length := reach_lt g cur hwf hcur t htr
      obtain ⟨p, hp, hph, hpl⟩ := reconstruct_of_reach g cur t hwf hW hcur htr htne
      rw [hp]
      dsimp only
      rw [hpl]
      cases hdir : path_to_directions coords p with
      | error e =>
        refine ⟨Except.error e, rfl, ?_⟩
        intro segs hseg
        cases hseg
      | ok dirs =>
        have hnd' : (remaining.filter (fun x => x ≠ t)).Nodup := hnd.filter _
        have hnin' : t ∉ remaining.filter (fun x => x ≠ t) := by
          intro hx
          have := List.of_mem_filter hx
          simp at this
        have hreach' : ∀ t2 ∈ remaining.filter (fun x => x ≠ t), reach g t t2 := by
          intro t2 ht2
          have hmem2 := List.mem_of_mem_filter ht2
          exact reach_trans g t cur t2 (reach_symm g hsym cur t htr)
            (hreach t2 hmem2)
        have hflen := filter_ne_length t remaining hnd htmem
        obtain ⟨res, hres, hcount⟩ := ih t (remaining.filter (fun x => x ≠ t))
          (acc ++ [dirs]) htlt hnd' hnin' hreach' (by omega)
        refine ⟨res, hres, ?_⟩
        intro segs hseg
        have hc := hcount segs hseg
        rw [List.length_append] at hc
        simp only [List.length_singleton] at hc
        omega

end BestPath

namespace BestPath

/-- **C7 (counterexample).** The reachability filter itself is exact, but the
claimed consequence fails: on the one-vertex graph with the start itself
requested, the start is reachable and survives the filter, yet the router
never emits a segment for it — it loops forever, because the start's own
reconstruction is `None` and the pathless minimum candidate is never
dropped. -/
theorem c7_counterexample :
    find_connected_targets [[]] 0 [0] = [0] ∧
    reach [[]] 0 0 ∧
    build_path_diverges [[]] (fun _ => some (0, 0)) 0 [0] := by
  refine ⟨rfl, reach.refl, ?_⟩
  intro fuel
  induction fuel with
  | zero => rfl
  | succ n ih => exact ih

/-- **C7 (amended).** The filter returns exactly the requested vertices
reachable from the start; and provided the start's own cell is not among the
requested targets (and the graph is edge-symmetric, as adjacency graphs of
matrices are), the router terminates and — unless a direction conversion
error aborts it — emits exactly one segment per entry of the filtered
list, i.e. per distinct reachable requested vertex. -/
theorem c7_filter_router_composition (g : List (List Node)) (start : Nat)
    (targets : List Nat) (coords : Nat → Option (Nat × Nat))
    (hwf : ∀ u, ∀ nd ∈ g.getD u [], nd.index < g.length)
    (hstart : start < g.length)
    (hW : weight_total g < INF_SENTINEL)
    (hsym : ∀ u v w, Node.mk v w ∈ g.getD u [] → ∃ w2, Node.mk u w2 ∈ g.getD v [])
    (hns : start ∉ targets) :
    (∀ v, v ∈ find_connected_targets g start targets ↔
      v ∈ targets ∧ reach g start v) ∧
    ∃ res, build_path g start (find_connected_targets g start targets) coords
        = some res ∧
      ∀ segs, res = Except.ok segs →
        segs.length = (find_connected_targets g start targets).length := by
  obtain ⟨hnd, hmem⟩ := fct_spec g start targets hwf hstart
  refine ⟨hnd, ?_⟩
  have hnin : start ∉ find_connected_targets g start targets := by
    intro h
    exact hns ((hnd start).mp h).1
  have hreach : ∀ t ∈ find_connected_targets g start targets, reach g start t :=
    fun t ht => ((hnd t).mp ht).2
  obtain ⟨res, hres, hcount⟩ := build_path_loop_spec g coords hwf hW hsym
    ((find_connected_targets g start targets).length + 1) start
    (find_connected_targets g start targets) [] hstart hmem hnin hreach
    (by omega)
  refine ⟨res, hres, ?_⟩
  intro segs hseg
  simpa using hcount segs hseg

theorem c7_witness :
    (1 ∈ find_connected_targets [[Node.mk 1 1], [Node.mk 0 1]] 0 [1] ↔
      1 ∈ [1] ∧ reach [[Node.mk 1 1], [Node.mk 0 1]] 0 1) ∧
    ∃ res, build_path [[Node.mk 1 1], [Node.mk 0 1]] 0
        (find_connected_targets [[Node.mk 1 1], [Node.mk 0 1]] 0 [1])
        (fun i => if i = 0 then some (0, 0) else some (0, 1)) = some res ∧
      ∀ segs, res = Except.ok segs →
        segs.length =
          (find_connected_targets [[Node.mk 1 1], [Node.mk 0 1]] 0 [1]).length := by
  have hsym : ∀ u v w, Node.mk v w ∈ ([[Node.mk 1 1], [Node.mk 0 1]] :
      List (List Node)).getD u [] →
      ∃ w2, Node.mk u w2 ∈ ([[Node.mk 1 1], [Node.mk 0 1]] :
        List (List Node)).getD v [] := by
    intro u v w h
    match u with
    | 0 =>
      simp only [List.getD_cons_zero, List.mem_singleton] at h
      injection h with h1 h2
      subst h1
      exact ⟨1, by decide⟩
    | 1 =>
      simp only [List.getD_cons_succ, List.getD_cons_zero,
        List.mem_singleton] at h
      injection h with h1 h2
      subst h1
      exact ⟨1, by decide⟩
    | u + 2 =>
      rw [List.getD_eq_default] at h
      · cases h
      · simp
  have h := c7_filter_router_composition [[Node.mk 1 1], [Node.mk 0 1]] 0 [1]
    (fun i => if i = 0 then some (0, 0) else some (0, 1))
    gtwo_wf (by decide) (by decide) hsym (by decide)
  exact ⟨h.1 1, h.2⟩

end BestPath
